import Mathlib

/-!
Verification development for the tmql repository: a shallow embedding of
the `TMPipeline` aggregation-pipeline builder (translated from
`src/pipeline/TMPipeline.ts` and `src/collection/TMCollection.ts`) together
with a model of the dependency-graph orchestrator (`TMProject` and friends,
whose implementation is not part of the provided sources and is therefore
modelled from the specification).
-/

namespace Tmql

/-- A MongoDB collection handle; `getCollectionName` returns the name given
at construction (translation of `TMCollection`). -/
structure TMCollection where
  collectionName : String
deriving DecidableEq, Repr

def TMCollection.getCollectionName (c : TMCollection) : String :=
  c.collectionName

/-- The fields of a `$lookup` argument other than `from` and `pipeline`
(`localField`, `foreignField`, `as`); the builder spreads them unchanged
into the emitted stage object (`...$lookupRest`). -/
structure LookupRest where
  localField : Option String
  foreignField : Option String
  asField : String
deriving DecidableEq, Repr

/-- Shape of one element of `TMPipeline`'s internal `pipeline : unknown[]`
array. Stage payloads the builder never inspects (the `$match` query object
and the like) are kept as opaque tokens of type `Nat`; `otherSt` stands for
an arbitrary caller-supplied stage object appended through `custom`.
`lookupSt` and `unionWithSt` record, as the builder emits them, the resolved
source-collection name (the `from` resp. `coll` field) and the optional
resolved sub-pipeline (the `pipeline` field, present exactly when the
builder put it there). -/
inductive Stage where
  | otherSt (tag : Nat)
  | matchSt (q : Nat)
  | setSt (q : Nat)
  | unsetSt (q : Nat)
  | lookupSt (fromName : String) (rest : LookupRest) (sub : Option (List Stage))
  | groupSt (q : Nat)
  | projectSt (q : Nat)
  | replaceRootSt (q : Nat)
  | unionWithSt (collName : String) (sub : Option (List Stage))
  | outSt (outName : String)

/-- State of a `TMPipeline` object: its internal stage array
(`private pipeline: unknown[]`). -/
structure TMPipeline where
  pipeline : List Stage

/-- `getPipeline()` returns the internal stage array. -/
def TMPipeline.getPipeline (p : TMPipeline) : List Stage :=
  p.pipeline

/-- `custom(pipelineStages)`: `new TMPipeline([...this.pipeline, ...pipelineStages])`. -/
def TMPipeline.custom (p : TMPipeline) (pipelineStages : List Stage) : TMPipeline :=
  ⟨p.pipeline ++ pipelineStages⟩

/-- `match($match)`: `new TMPipeline([...this.pipeline, { $match }])`.
Named `matchStage` because `match` is reserved in Lean. -/
def TMPipeline.matchStage (p : TMPipeline) (q : Nat) : TMPipeline :=
  ⟨p.pipeline ++ [Stage.matchSt q]⟩

/-- `set($set)`: `new TMPipeline([...this.pipeline, { $set }])`. -/
def TMPipeline.set (p : TMPipeline) (q : Nat) : TMPipeline :=
  ⟨p.pipeline ++ [Stage.setSt q]⟩

/-- `unset($unset)`: `new TMPipeline([...this.pipeline, { $unset }])`. -/
def TMPipeline.unset (p : TMPipeline) (q : Nat) : TMPipeline :=
  ⟨p.pipeline ++ [Stage.unsetSt q]⟩

/-- `const resolvedPipeline = pipeline ? pipeline(new TMPipeline()) : undefined`,
followed by taking `.getPipeline()` where the builder embeds it:
the optional sub-pipeline function applied to a fresh empty pipeline. -/
def resolveSubPipeline (sub : Option (TMPipeline → TMPipeline)) : Option (List Stage) :=
  sub.map (fun f => (f ⟨[]⟩).getPipeline)

/-- `lookup($lookup)`: destructures `{ from, pipeline, ...$lookupRest }` and
appends `{ $lookup: { from: from.getCollectionName(), ...$lookupRest,
...(resolvedPipeline && { pipeline: resolvedPipeline.getPipeline() }) } }`. -/
def TMPipeline.lookup (p : TMPipeline) (fromColl : TMCollection) (rest : LookupRest)
    (sub : Option (TMPipeline → TMPipeline)) : TMPipeline :=
  ⟨p.pipeline ++ [Stage.lookupSt fromColl.getCollectionName rest (resolveSubPipeline sub)]⟩

/-- `group($group)`: `new TMPipeline([...this.pipeline, { $group }])`. -/
def TMPipeline.group (p : TMPipeline) (q : Nat) : TMPipeline :=
  ⟨p.pipeline ++ [Stage.groupSt q]⟩

/-- `project($project)`: `new TMPipeline([...this.pipeline, { $project }])`. -/
def TMPipeline.project (p : TMPipeline) (q : Nat) : TMPipeline :=
  ⟨p.pipeline ++ [Stage.projectSt q]⟩

/-- `replaceRoot($replaceRoot)`: `new TMPipeline([...this.pipeline, { $replaceRoot }])`. -/
def TMPipeline.replaceRoot (p : TMPipeline) (q : Nat) : TMPipeline :=
  ⟨p.pipeline ++ [Stage.replaceRootSt q]⟩

/-- `unionWith($unionWith)`: destructures `{ coll, pipeline }` and appends
`{ $unionWith: { coll: coll.getCollectionName(),
...(resolvedPipeline && { pipeline: resolvedPipeline.getPipeline() }) } }`. -/
def TMPipeline.unionWith (p : TMPipeline) (coll : TMCollection)
    (sub : Option (TMPipeline → TMPipeline)) : TMPipeline :=
  ⟨p.pipeline ++ [Stage.unionWithSt coll.getCollectionName (resolveSubPipeline sub)]⟩

/-- `out($out)`: `new TMPipeline([...this.pipeline, { $out }])`. -/
def TMPipeline.out (p : TMPipeline) (outName : String) : TMPipeline :=
  ⟨p.pipeline ++ [Stage.outSt outName]⟩

/-- One invocation of a `TMPipeline` stage method, with its arguments. -/
inductive StageCall where
  | customC (pipelineStages : List Stage)
  | matchC (q : Nat)
  | setC (q : Nat)
  | unsetC (q : Nat)
  | lookupC (fromColl : TMCollection) (rest : LookupRest) (sub : Option (TMPipeline → TMPipeline))
  | groupC (q : Nat)
  | projectC (q : Nat)
  | replaceRootC (q : Nat)
  | unionWithC (coll : TMCollection) (sub : Option (TMPipeline → TMPipeline))
  | outC (outName : String)

/-- Whether a stage call is the `custom` escape hatch (which may append any
number of stages) as opposed to one of the nine single-stage methods. -/
def StageCall.isCustom : StageCall → Bool
  | .customC _ => true
  | _ => false

/-- Dispatch a stage call to the corresponding `TMPipeline` method. -/
def applyCall (p : TMPipeline) : StageCall → TMPipeline
  | .customC stages => p.custom stages
  | .matchC q => p.matchStage q
  | .setC q => p.set q
  | .unsetC q => p.unset q
  | .lookupC c rest sub => p.lookup c rest sub
  | .groupC q => p.group q
  | .projectC q => p.project q
  | .replaceRootC q => p.replaceRoot q
  | .unionWithC c sub => p.unionWith c sub
  | .outC n => p.out n

/-- The stage objects a call appends to the end of the array. -/
def emitted : StageCall → List Stage
  | .customC stages => stages
  | .matchC q => [Stage.matchSt q]
  | .setC q => [Stage.setSt q]
  | .unsetC q => [Stage.unsetSt q]
  | .lookupC c rest sub => [Stage.lookupSt c.getCollectionName rest (resolveSubPipeline sub)]
  | .groupC q => [Stage.groupSt q]
  | .projectC q => [Stage.projectSt q]
  | .replaceRootC q => [Stage.replaceRootSt q]
  | .unionWithC c sub => [Stage.unionWithSt c.getCollectionName (resolveSubPipeline sub)]
  | .outC n => [Stage.outSt n]

/-- A chain of stage-method invocations starting from a pipeline value. -/
def applyChain (p : TMPipeline) (calls : List StageCall) : TMPipeline :=
  calls.foldl applyCall p

/-- Heap of pipeline objects for reasoning about object identity: the index
of a cell is a pipeline object's identity, its content the object's internal
stage array. -/
abbrev PipeStore : Type := List (List Stage)

/-- Read a pipeline object's internal stage array from the heap. -/
def storeGet (s : PipeStore) (r : Nat) : List Stage :=
  List.getD s r []

/-- `new TMPipeline(content)`: allocate a fresh pipeline object holding the
given array; returns the grown heap and the fresh object's identity. -/
def allocPipe (s : PipeStore) (content : List Stage) : PipeStore × Nat :=
  (List.append s [content], List.length s)

/-- A stage-method invocation on the heap: the method reads the receiver's
array, builds the extended array with a spread (a fresh array), and wraps it
in a freshly constructed `TMPipeline` object; the receiver is not written. -/
def applyCallS (s : PipeStore) (r : Nat) (c : StageCall) : PipeStore × Nat :=
  allocPipe s (applyCall ⟨storeGet s r⟩ c).pipeline

/-! Orchestrator model. The `TMProject`/`TMModel` implementation
(the `tmql-orchestration` package) is not among the provided sources — only
its re-exported declarations and documentation are — so the definitions
below are modelled from the specification and say so in their doc comments. -/

mutual

/-- Modelled from the spec: names of the sources a single stage references as
a join/union operand; a lookup or union stage embeds
`{ sourceName, optionalSubPipeline }` and a sub-pipeline may recursively
embed further auxiliary references, which are also scanned. -/
def scanAuxStage : Stage → List String
  | .lookupSt fromName _ sub =>
      fromName :: (match sub with
        | some ps => scanAuxList ps
        | none => [])
  | .unionWithSt collName sub =>
      collName :: (match sub with
        | some ps => scanAuxList ps
        | none => [])
  | _ => []

/-- Modelled from the spec: auxiliary references of a whole stage sequence,
in discovery order, before deduplication. -/
def scanAuxList : List Stage → List String
  | [] => []
  | s :: rest => scanAuxStage s ++ scanAuxList rest

end

/-- Append to `acc` the members of `xs` not already present, keeping the
first-discovery order; used for order-stable deduplication. -/
def addNew (acc : List String) (xs : List String) : List String :=
  xs.foldl (fun a x => if x ∈ a then a else a ++ [x]) acc

/-- Modelled from the spec: auxiliary references of a transformation's stage
sequence, deduplicated by source identity, in first-discovery order. -/
def scanAux (stages : List Stage) : List String :=
  addNew [] (scanAuxList stages)

/-- Modelled from the spec: a model's materialization strategy. -/
inductive Materialization where
  | replace
  | upsert (key : List String)
  | append
deriving DecidableEq

/-- Modelled from the spec: a declarative model definition. `name` is the
model's unique name, `primary` the name of the explicit "built from" source,
`stages` the raw transformation stage sequence (from which auxiliary
references are scanned), `outputName` the name of the produced output,
`materialization` the write strategy. Sources are referenced by name. -/
structure ModelDef where
  name : String
  primary : String
  stages : List Stage
  outputName : String
  materialization : Materialization

/-- Modelled from the spec: the source registry, owning the canonical
name-to-source mapping: the registered model definitions and the names of
the base collections (leaves with no dependencies). -/
structure Registry where
  models : List ModelDef
  collections : List String

/-- Modelled from the spec: result of the Reference Scanner — exactly one
primary reference plus the deduplicated auxiliary references. -/
structure ScanResult where
  primary : String
  auxiliary : List String
deriving DecidableEq

/-- Modelled from the spec: `scan(transformationDefinition, knownSources)`.
The transformation definition is the pair of the declared primary source and
the raw stage sequence. Scanning is pure and total; `knownSources` is
accepted but not consulted, because an auxiliary reference to an unknown
name is not an error at scan time (that check belongs to the Validator). -/
def scan (primaryRef : String) (stages : List Stage) (knownSources : List String) : ScanResult :=
  let _ := knownSources
  ⟨primaryRef, scanAux stages⟩

/-- Look a model definition up by name (first registered wins). -/
def findModel (reg : Registry) (n : String) : Option ModelDef :=
  reg.models.find? (fun m => m.name = n)

/-- Whether a name resolves to a registered model. -/
def isModelName (reg : Registry) (n : String) : Bool :=
  (findModel reg n).isSome

/-- Whether a name resolves to anything in the registry (model or base
collection). -/
def isKnownSource (reg : Registry) (n : String) : Bool :=
  isModelName reg n || n ∈ reg.collections

/-- All source names a model definition references: the primary reference
followed by the scanned auxiliary references. -/
def refsOfDef (m : ModelDef) : List String :=
  m.primary :: scanAux m.stages

/-- Source names referenced by the named model (empty when the name is not a
registered model). -/
def modelRefs (reg : Registry) (n : String) : List String :=
  match findModel reg n with
  | some m => refsOfDef m
  | none => []

/-- The referenced sources that are themselves models — the dependency
predecessors a model must wait for. -/
def depsIn (reg : Registry) (n : String) : List String :=
  (modelRefs reg n).filter (fun r => isModelName reg r)

/-- Modelled from the spec: one expansion step of the Graph Builder's
traversal — add every model referenced (primarily or auxiliarily) by an
already-discovered model, never re-adding a node already recorded, so the
step terminates even on cyclic input. -/
def buildStep (reg : Registry) (s : List String) : List String :=
  addNew s ((s.flatMap (modelRefs reg)).filter (fun r => isModelName reg r))

/-- The initial discovery set: the given targets that are registered models,
deduplicated in first-occurrence order. -/
def initialTargets (reg : Registry) (targets : List String) : List String :=
  addNew [] (targets.filter (fun t => isModelName reg t))

/-- Modelled from the spec: the Graph Builder's discovery,
`build(targets)` — starting from the target models, follow primary and
auxiliary references transitively; iterating the step once more than the
number of registered models reaches the closure. -/

def buildModels (reg : Registry) (targets : List String) : List String :=
  (buildStep reg)^[reg.models.length + 1] (initialTargets reg targets)

/-- Specification-side notion of being transitively required: a model is
required when it is a target, or when it is referenced (primarily or
auxiliarily) by a required model. -/
inductive Reaches (reg : Registry) (targets : List String) : String → Prop where
  | target {n : String} : n ∈ targets → isModelName reg n = true → Reaches reg targets n
  | step {m r : String} : Reaches reg targets m → r ∈ modelRefs reg m →
      isModelName reg r = true → Reaches reg targets r

/-- Lexicographic less-or-equal on character lists, by code point. -/
def leChars : List Char → List Char → Bool
  | [], _ => true
  | _ :: _, [] => false
  | a :: as, b :: bs =>
      if a.toNat < b.toNat then true
      else if b.toNat < a.toNat then false
      else leChars as bs

/-- Lexicographic less-or-equal on names — the scheduler's name-ascending
tie-break order. -/
def strLE (x y : String) : Bool :=
  leChars x.data y.data

/-- The least element of a list of names, used for the scheduler's
name-ascending tie break. -/
def listMin : List String → Option String
  | [] => none
  | x :: xs =>
      match listMin xs with
      | none => some x
      | some y => some (if strLE x y then x else y)

/-- Modelled from the spec: dependency edge kinds. -/
inductive EdgeKind where
  | primary
  | auxiliary
deriving DecidableEq

/-- Modelled from the spec: a dependency edge `(from, to, kind)`, with the
endpoints given by source name. -/
structure DependencyEdge where
  fromModel : String
  toSource : String
  kind : EdgeKind
deriving DecidableEq

/-- Modelled from the spec: the edges of the built graph — for every
discovered model, one Primary edge to its primary reference and one
Auxiliary edge to each scanned auxiliary reference. -/
def graphEdges (reg : Registry) (g : List String) : List DependencyEdge :=
  g.flatMap (fun n =>
    match findModel reg n with
    | some m =>
        ⟨n, m.primary, EdgeKind.primary⟩ ::
          (scanAux m.stages).map (fun r => ⟨n, r, EdgeKind.auxiliary⟩)
    | none => [])

/-- Nodes of `remaining` all of whose model dependencies are already
placed — the candidates the scheduler may emit next. -/
def readyList (reg : Registry) (placed remaining : List String) : List String :=
  remaining.filter (fun n => (depsIn reg n).all (fun d => d ∈ placed))

/-- Modelled from the spec: Kahn-style topological scheduling with the
name-ascending tie break — repeatedly emit the least-named node having no
unplaced dependency; when no node is ready but nodes remain, scheduling is
stuck on a cycle and the stuck remainder is returned as the error. -/
def kahnAux (reg : Registry) : Nat → List String → List String → Except (List String) (List String)
  | 0, placed, remaining => if remaining = [] then .ok placed else .error remaining
  | fuel + 1, placed, remaining =>
      if remaining = [] then .ok placed
      else
        match listMin (readyList reg placed remaining) with
        | some n => kahnAux reg fuel (placed ++ [n]) (remaining.erase n)
        | none => .error remaining

/-- Modelled from the spec: `schedule(graph)` over the discovered model set
`g`; `.ok` carries the deterministic topological order, `.error` the stuck
set witnessing a cycle. -/
def scheduleG (reg : Registry) (g : List String) : Except (List String) (List String) :=
  kahnAux reg g.length [] g

/-- The first model dependency of `n` that lies inside `r`; used to walk
along edges inside a stuck set when extracting a cycle path. -/
def pickDep (reg : Registry) (r : List String) (n : String) : Option String :=
  ((depsIn reg n).filter (fun d => d ∈ r)).head?

/-- Modelled from the spec: walk dependency edges inside the stuck set,
recording the path, until a node repeats; the recorded path is kept most
recent first, and the returned cycle is the slice from the most recent
occurrence of the repeated node. -/
def walkCycle (reg : Registry) (r : List String) : Nat → String → List String → Option (List String)
  | 0, _, _ => none
  | fuel + 1, n, path =>
      match pickDep reg r n with
      | none => none
      | some d =>
          if d ∈ n :: path then some ((n :: path).take ((n :: path).indexOf d + 1))
          else walkCycle reg r fuel d (n :: path)

/-- Whether every adjacent pair `(a, b)` of the list satisfies
`a ∈ depsIn reg b`, i.e. each element is referenced by its successor. -/
def revRefChainB (reg : Registry) : List String → Bool
  | [] => true
  | [_] => true
  | a :: b :: rest => decide (a ∈ depsIn reg b) && revRefChainB reg (b :: rest)

/-- The last name of a path (empty default for the empty path). -/
def lastOf : List String → String
  | [] => ""
  | [x] => x
  | _ :: x :: xs => lastOf (x :: xs)

/-- An ordered cycle path of model names: nonempty, each element is
referenced by its successor, and, closing the cycle, the head references
the last element. -/
def cyclePathOK (reg : Registry) (c : List String) : Bool :=
  match c with
  | [] => false
  | h :: _ => revRefChainB reg c && decide (lastOf c ∈ depsIn reg h)

/-- Modelled from the spec: the fatal validation error kinds. -/
inductive ValidationError where
  | duplicateModelName (name : String)
  | unknownSourceReference (missing : String) (referrer : String)
  | cyclicDependency (cycle : List String)
deriving DecidableEq

/-- Modelled from the spec: the advisory warning kinds surfaced without
blocking construction (further discretionary advisories are omitted). -/
inductive ValidationWarning where
  | unusedAuxiliaryModel (name : String)
deriving DecidableEq

/-- Names registered more than once, each reported once, in first-occurrence
order. -/
def duplicateNames (reg : Registry) : List String :=
  addNew [] ((reg.models.map (fun m => m.name)).filter
    (fun n => 1 < (reg.models.map (fun m => m.name)).count n))

/-- Modelled from the spec: `DuplicateModelName` errors, in stable order. -/
def dupErrors (reg : Registry) : List ValidationError :=
  (duplicateNames reg).map ValidationError.duplicateModelName

/-- Modelled from the spec: `UnknownSourceReference` errors — for every
discovered model, in discovery order, one error per reference (primary or
auxiliary, in scan order) whose name is absent from the registry, naming
the missing source and the referencing model. -/
def unknownErrors (reg : Registry) (g : List String) : List ValidationError :=
  g.flatMap (fun n =>
    match findModel reg n with
    | some m =>
        ((refsOfDef m).filter (fun r => !isKnownSource reg r)).map
          (fun r => ValidationError.unknownSourceReference r n)
    | none => [])

/-- Modelled from the spec: `CyclicDependency` errors — when scheduling is
stuck, report the full ordered cycle extracted from the stuck set (the
fallback branch is unreachable, as proved below, and only keeps the
definition total). -/
def cycleErrors (reg : Registry) (g : List String) : List ValidationError :=
  match scheduleG reg g with
  | .ok _ => []
  | .error r =>
      match walkCycle reg r (r.length) (r.headD "") [] with
      | some c => [ValidationError.cyclicDependency c]
      | none => [ValidationError.cyclicDependency r]

/-- Modelled from the spec: `UnusedAuxiliaryModel` warnings — registered
models reachable from no target, in registration order. -/
def unusedWarnings (reg : Registry) (g : List String) : List ValidationWarning :=
  ((reg.models.map (fun m => m.name)).filter (fun n => !(n ∈ g))).map
    ValidationWarning.unusedAuxiliaryModel

/-- Modelled from the spec: `validate(graph)` — the stable-ordered fatal
errors and advisory warnings for the graph discovered from the targets. -/
def validate (reg : Registry) (targets : List String) :
    List ValidationError × List ValidationWarning :=
  (dupErrors reg ++ unknownErrors reg (buildModels reg targets)
      ++ cycleErrors reg (buildModels reg targets),
   unusedWarnings reg (buildModels reg targets))

/-- Modelled from the spec: an immutable Project — the discovered
name-to-model mapping, the dependency-edge set, and the scheduled order,
all fixed at construction. -/
structure Project where
  models : List (String × ModelDef)
  graph : List DependencyEdge
  order : List String

/-- Modelled from the spec: Project construction — discovery, validation
and scheduling run eagerly; any fatal error aborts construction and no
Project value is produced (the defensive final branch is unreachable since
an empty error list implies scheduling succeeded). -/
def buildProject (reg : Registry) (targets : List String) :
    Except (List ValidationError) Project :=
  if (validate reg targets).1 = [] then
    match scheduleG reg (buildModels reg targets) with
    | .ok order =>
        .ok ⟨(buildModels reg targets).filterMap
              (fun n => (findModel reg n).map (fun m => (n, m))),
             graphEdges reg (buildModels reg targets), order⟩
    | .error r => .error [ValidationError.cyclicDependency r]
  else .error (validate reg targets).1

/-- Modelled from the spec: outcome recorded for one model of a run. -/
inductive ModelStatus where
  | succeeded
  | failed
  | skipped
deriving DecidableEq

/-- Modelled from the spec: the run-level failure policy. -/
inductive FailurePolicy where
  | failFast
  | continueOnError
deriving DecidableEq

/-- Modelled from the spec: the overall status of a run. -/
inductive OverallStatus where
  | success
  | partialFailure
  | failure
deriving DecidableEq

/-- Modelled from the spec: the per-run result — the per-model outcomes and
the overall status, created fresh on each run and not retained by the
Project. -/
structure RunResult where
  perModel : List (String × ModelStatus)
  overallStatus : OverallStatus
deriving DecidableEq

/-- The model dependencies of `m` inside the Project: the referenced sources
that resolve to models of the Project's own mapping. -/
def projDeps (p : Project) (m : String) : List String :=
  match p.models.lookup m with
  | some md => (refsOfDef md).filter (fun r => (p.models.lookup r).isSome)
  | none => []

/-- Modelled from the spec: the per-run mutable state the Executor threads
through the scheduled order; the Project components ride along so that the
step function's effect on them is stated, not assumed. -/
structure ExecState where
  proj : Project
  results : List (String × ModelStatus)
  invoked : List String
  halted : Bool

/-- Modelled from the spec: executing one scheduled model. A model whose
dependencies have not all succeeded — or any model after a failure under
`FailFast`, this orchestrator's documented halt-everything choice — is
marked `Skipped` without invoking the execution capability; otherwise the
injected capability is invoked once and its outcome recorded, a failure
raising the halt flag. -/
def execStep (cap : String → Bool) (pol : FailurePolicy) (st : ExecState) (m : String) :
    ExecState :=
  if (decide (pol = FailurePolicy.failFast) && st.halted)
      || !((projDeps st.proj m).all
            (fun d => st.results.lookup d = some ModelStatus.succeeded)) then
    { st with results := st.results ++ [(m, ModelStatus.skipped)] }
  else if cap m then
    { st with results := st.results ++ [(m, ModelStatus.succeeded)], invoked := st.invoked ++ [m] }
  else
    { st with results := st.results ++ [(m, ModelStatus.failed)],
              invoked := st.invoked ++ [m], halted := true }

/-- The Executor's fold over a prefix of the scheduled order, starting from
the fresh per-run state. -/
def runProjectAux (p : Project) (cap : String → Bool) (pol : FailurePolicy)
    (order : List String) : ExecState :=
  order.foldl (execStep cap pol) ⟨p, [], [], false⟩

/-- Modelled from the spec: the overall status — `Success` exactly when
every scheduled model succeeded, otherwise `PartialFailure` when some model
succeeded and `Failure` when none did. -/
def overallOf (results : List (String × ModelStatus)) : OverallStatus :=
  if results.all (fun e => e.2 = ModelStatus.succeeded) then OverallStatus.success
  else if results.any (fun e => e.2 = ModelStatus.succeeded) then OverallStatus.partialFailure
  else OverallStatus.failure

/-- Modelled from the spec: `run(options)` — consume the immutable plan in
scheduled order and produce a fresh `RunResult`; the Project state the run
leaves behind is returned alongside it. -/
def runProject (p : Project) (cap : String → Bool) (pol : FailurePolicy) :
    RunResult × Project :=
  let final := runProjectAux p cap pol p.order
  (⟨final.results, overallOf final.results⟩, final.proj)

/-- Transitive dependency: `TransDepends p m f` when `f` is in `m`'s
dependency chain (via Primary or Auxiliary references) inside Project `p`. -/
def TransDepends (p : Project) (m f : String) : Prop :=
  Relation.TransGen (fun a b => b ∈ projDeps p a) m f

/-- Specification-side statement that an emission order respects the
dependency edges: processing the list left to right with `placed`
accumulating the already-emitted nodes, every node's model dependencies are
placed before it. -/
def topoOK (reg : Registry) : List String → List String → Prop
  | _, [] => True
  | placed, n :: rest =>
      (∀ d ∈ depsIn reg n, d ∈ placed) ∧ topoOK reg (placed ++ [n]) rest

/-- Nodes of `g` not yet placed whose model dependencies are all placed:
the nodes with no remaining ordering constraint. -/
def availList (reg : Registry) (g placed : List String) : List String :=
  g.filter (fun n => !decide (n ∈ placed) && (depsIn reg n).all (fun d => decide (d ∈ placed)))

/-- Specification-side statement of the deterministic tie break: at every
position the emitted node is the least, by name ascending, among the nodes
of `g` with no remaining ordering constraint. -/
def minChain (reg : Registry) (g : List String) : List String → List String → Prop
  | _, [] => True
  | placed, n :: rest =>
      (n ∈ availList reg g placed ∧ ∀ m ∈ availList reg g placed, strLE n m = true) ∧
        minChain reg g (placed ++ [n]) rest

/-- Concrete registry for checking theorems at an input: models `a` (built
from `b`, with a lookup on `c`), `b` and `c` (built from the base collection
`raw`, `c` additionally unioning with `b` and looking up `d` inside the
sub-pipeline), `d`, and an unused model `z`. -/
def demoReg : Registry :=
  ⟨[⟨"a", "b", [Stage.lookupSt "c" ⟨none, none, "j"⟩ none], "out_a", Materialization.replace⟩,
    ⟨"b", "raw", [], "out_b", Materialization.replace⟩,
    ⟨"c", "raw", [Stage.unionWithSt "b" (some [Stage.lookupSt "d" ⟨none, none, "j"⟩ none])],
      "out_c", Materialization.append⟩,
    ⟨"d", "raw", [], "out_d", Materialization.replace⟩,
    ⟨"z", "raw", [], "out_z", Materialization.replace⟩],
   ["raw"]⟩

/-- The successfully constructed Project for the demo registry with target
`a`. -/
def demoProj : Project :=
  match buildProject demoReg ["a"] with
  | .ok p => p
  | .error _ => ⟨[], [], []⟩

/-- Concrete cyclic registry: `a` is built from `b` while `b` looks up `a`. -/
def cycReg : Registry :=
  ⟨[⟨"a", "b", [], "out_a", Materialization.replace⟩,
    ⟨"b", "raw", [Stage.lookupSt "a" ⟨none, none, "j"⟩ none], "out_b",
      Materialization.replace⟩],
   ["raw"]⟩

/-- Concrete registry with a dangling reference: `a` looks up the
unregistered name `ghost`. -/
def unkReg : Registry :=
  ⟨[⟨"a", "raw", [Stage.lookupSt "ghost" ⟨none, none, "j"⟩ none], "out_a",
      Materialization.replace⟩],
   ["raw"]⟩

/-- Concrete chain registry: `C` is built from `B`, `B` from `A`, `A` from
the base collection `raw`. -/
def chainReg : Registry :=
  ⟨[⟨"A", "raw", [], "oA", Materialization.replace⟩,
    ⟨"B", "A", [], "oB", Materialization.replace⟩,
    ⟨"C", "B", [], "oC", Materialization.replace⟩],
   ["raw"]⟩

/-- The successfully constructed Project for the chain registry. -/
def chainProj : Project :=
  match buildProject chainReg ["C"] with
  | .ok p => p
  | .error _ => ⟨[], [], []⟩

/-- Execution capability for the chain example: every model succeeds except
`B`. -/
def chainCap : String → Bool := fun n => n != "B"

/-! Helper lemmas for the pipeline builder. -/

theorem applyCall_pipeline (p : TMPipeline) (c : StageCall) :
    (applyCall p c).getPipeline = p.getPipeline ++ emitted c := by
  cases c <;> rfl

theorem applyChain_pipeline (p : TMPipeline) (cs : List StageCall) :
    (applyChain p cs).getPipeline = p.getPipeline ++ cs.flatMap emitted := by
  induction cs generalizing p with
  | nil => simp [applyChain]
  | cons c rest ih =>
      have h1 : applyChain p (c :: rest) = applyChain (applyCall p c) rest := rfl
      rw [h1, ih, applyCall_pipeline]
      simp

theorem emitted_singleton (c : StageCall) (h : c.isCustom = false) :
    (emitted c).length = 1 := by
  cases c with
  | customC stages => simp [StageCall.isCustom] at h
  | _ => rfl

theorem storeGet_append_old (s : PipeStore) (x : List Stage) (i : Nat)
    (hi : i < s.length) :
    storeGet (s ++ [x]) i = storeGet s i := by
  simp [storeGet, List.getD_eq_getD_get?, List.getElem?_append_left hi]

theorem storeGet_append_new (s : PipeStore) (x : List Stage) :
    storeGet (s ++ [x]) s.length = x := by
  simp [storeGet, List.getD_eq_getD_get?]

theorem applyCallS_fst (s : PipeStore) (r : Nat) (c : StageCall) :
    (applyCallS s r c).1 = s ++ [storeGet s r ++ emitted c] := by
  have h : (applyCall ⟨storeGet s r⟩ c).pipeline = storeGet s r ++ emitted c :=
    applyCall_pipeline ⟨storeGet s r⟩ c
  simp [applyCallS, allocPipe, h]

theorem applyCallS_snd (s : PipeStore) (r : Nat) (c : StageCall) :
    (applyCallS s r c).2 = s.length := rfl

/-! Claims C8, C9, C10: the pipeline builder. -/

/-- C8: every `lookup` call appends a `$lookup` stage whose `from` field is
exactly the string `getCollectionName()` returns for the given source, and
whose `pipeline` field is present exactly when a sub-pipeline function was
supplied, in which case it holds the resolved sub-pipeline's stage array;
every `unionWith` call appends a `$unionWith` stage whose `coll` field is
the source's `getCollectionName()` string with the same optional-`pipeline`
rule — the scanner-recognizable `{ sourceName, optionalSubPipeline }`
shape. -/
theorem claim8 (p : TMPipeline) (c : TMCollection) (rest : LookupRest)
    (sub : Option (TMPipeline → TMPipeline)) :
    (p.lookup c rest sub).getPipeline
        = p.getPipeline ++ [Stage.lookupSt c.getCollectionName rest (resolveSubPipeline sub)] ∧
    (p.unionWith c sub).getPipeline
        = p.getPipeline ++ [Stage.unionWithSt c.getCollectionName (resolveSubPipeline sub)] ∧
    (resolveSubPipeline sub).isSome = sub.isSome ∧
    (∀ f : TMPipeline → TMPipeline, sub = some f →
      resolveSubPipeline sub = some ((f ⟨[]⟩).getPipeline)) := by
  refine ⟨rfl, rfl, ?_, ?_⟩
  · cases sub <;> rfl
  · intro f hf
    subst hf
    rfl

/-- Witness for C8 at a concrete input: a lookup with a sub-pipeline that
itself contains a union, checking the emitted stage shapes. -/
theorem claim8_witness :
    (TMPipeline.lookup ⟨[Stage.matchSt 7]⟩ ⟨"orders"⟩ ⟨some "a", some "b", "joined"⟩
        (some (fun q => q.unionWith ⟨"extras"⟩ none))).getPipeline
      = [Stage.matchSt 7,
         Stage.lookupSt "orders" ⟨some "a", some "b", "joined"⟩
           (some [Stage.unionWithSt "extras" none])] ∧
    resolveSubPipeline (some (fun q => q.unionWith ⟨"extras"⟩ none))
      = some [Stage.unionWithSt "extras" none] := by
  have h := claim8 ⟨[Stage.matchSt 7]⟩ ⟨"orders"⟩ ⟨some "a", some "b", "joined"⟩
    (some (fun q => q.unionWith ⟨"extras"⟩ none))
  exact ⟨h.1, h.2.2.2 (fun q => q.unionWith ⟨"extras"⟩ none) rfl⟩

/-- C9: every stage method leaves the receiving pipeline object's internal
stage array unchanged in the heap and returns a freshly allocated pipeline
object, so extending one pipeline value along two different chains leaves
each chain's `getPipeline()` result — and the receiver's — unaffected by
the other chain. -/
theorem claim9 (s : PipeStore) (r : Nat) (hr : r < s.length) (c₁ c₂ : StageCall) :
    storeGet (applyCallS (applyCallS s r c₁).1 r c₂).1 r = storeGet s r ∧
    (applyCallS s r c₁).2 ≠ r ∧
    (applyCallS (applyCallS s r c₁).1 r c₂).2 ≠ r ∧
    (applyCallS (applyCallS s r c₁).1 r c₂).2 ≠ (applyCallS s r c₁).2 ∧
    storeGet (applyCallS (applyCallS s r c₁).1 r c₂).1 (applyCallS s r c₁).2
        = storeGet s r ++ emitted c₁ ∧
    storeGet (applyCallS (applyCallS s r c₁).1 r c₂).1 (applyCallS (applyCallS s r c₁).1 r c₂).2
        = storeGet s r ++ emitted c₂ := by
  have hlen1 : (applyCallS s r c₁).1.length = s.length + 1 := by
    rw [applyCallS_fst]; simp
  have hid1 : (applyCallS s r c₁).2 = s.length := applyCallS_snd s r c₁
  have hid2 : (applyCallS (applyCallS s r c₁).1 r c₂).2 = s.length + 1 := by
    rw [applyCallS_snd, hlen1]
  have hr1 : r < (applyCallS s r c₁).1.length := by omega
  have hget1 : storeGet (applyCallS s r c₁).1 r = storeGet s r := by
    rw [applyCallS_fst]
    exact storeGet_append_old s _ r hr
  refine ⟨?_, ?_, ?_, ?_, ?_, ?_⟩
  · rw [applyCallS_fst (applyCallS s r c₁).1 r c₂, storeGet_append_old _ _ r hr1, hget1]
  · omega
  · omega
  · omega
  · rw [applyCallS_fst (applyCallS s r c₁).1 r c₂, hid1,
      storeGet_append_old _ _ _ (by omega), applyCallS_fst s r c₁]
    exact storeGet_append_new s _
  · rw [applyCallS_fst (applyCallS s r c₁).1 r c₂, hid2, ← hlen1, storeGet_append_new, hget1]

/-- Witness for C9 at a concrete heap: one pipeline object extended along a
`match` chain and a `set` chain. -/
theorem claim9_witness :
    0 < ([[Stage.outSt "o"]] : PipeStore).length ∧
    storeGet (applyCallS (applyCallS [[Stage.outSt "o"]] 0 (StageCall.matchC 3)).1 0
        (StageCall.setC 4)).1 0 = [Stage.outSt "o"] ∧
    storeGet (applyCallS (applyCallS [[Stage.outSt "o"]] 0 (StageCall.matchC 3)).1 0
        (StageCall.setC 4)).1 (applyCallS [[Stage.outSt "o"]] 0 (StageCall.matchC 3)).2
      = [Stage.outSt "o", Stage.matchSt 3] := by
  have h := claim9 [[Stage.outSt "o"]] 0 (by decide) (StageCall.matchC 3) (StageCall.setC 4)
  exact ⟨by decide, h.1, h.2.2.2.2.1⟩

/-- C10: `getPipeline()` returns the stages in exactly the order the
methods were called — every chain of stage calls yields the receiver's
stages followed by each call's emitted stages in call order, each
non-`custom` method appends exactly one stage, and `custom` appends its
given stages in their given order. -/
theorem claim10 (p : TMPipeline) (cs : List StageCall) :
    (applyChain p cs).getPipeline = p.getPipeline ++ cs.flatMap emitted ∧
    (∀ c : StageCall, (applyCall p c).getPipeline = p.getPipeline ++ emitted c) ∧
    (∀ c : StageCall, c.isCustom = false → (emitted c).length = 1) ∧
    (∀ stages : List Stage, emitted (StageCall.customC stages) = stages) :=
  ⟨applyChain_pipeline p cs, applyCall_pipeline p, emitted_singleton, fun _ => rfl⟩

/-- Witness for C10 at a concrete chain of calls. -/
theorem claim10_witness :
    (applyChain ⟨[]⟩ [StageCall.matchC 0, StageCall.customC [Stage.otherSt 8, Stage.otherSt 9],
        StageCall.outC "t"]).getPipeline
      = [Stage.matchSt 0, Stage.otherSt 8, Stage.otherSt 9, Stage.outSt "t"] ∧
    (emitted (StageCall.groupC 5)).length = 1 := by
  have h := claim10 ⟨[]⟩ [StageCall.matchC 0,
    StageCall.customC [Stage.otherSt 8, Stage.otherSt 9], StageCall.outC "t"]
  exact ⟨h.1, h.2.2.1 (StageCall.groupC 5) rfl⟩

/-! Helper lemmas for the graph builder. -/

theorem addNew_cons (acc : List String) (x : String) (rest : List String) :
    addNew acc (x :: rest) = addNew (if x ∈ acc then acc else acc ++ [x]) rest := by
  simp only [addNew, List.foldl_cons]

theorem addNew_exists_suffix (xs acc : List String) :
    ∃ t, addNew acc xs = acc ++ t := by
  induction xs generalizing acc with
  | nil => exact ⟨[], by simp [addNew]⟩
  | cons x rest ih =>
      rw [addNew_cons]
      by_cases hx : x ∈ acc
      · simpa [hx] using ih acc
      · obtain ⟨t, ht⟩ := ih (acc ++ [x])
        exact ⟨x :: t, by simp [hx, ht]⟩

theorem length_le_addNew (xs acc : List String) :
    acc.length ≤ (addNew acc xs).length := by
  obtain ⟨t, ht⟩ := addNew_exists_suffix xs acc
  simp [ht]

theorem mem_addNew (xs acc : List String) (x : String) :
    x ∈ addNew acc xs ↔ x ∈ acc ∨ x ∈ xs := by
  induction xs generalizing acc with
  | nil => simp [addNew]
  | cons y rest ih =>
      rw [addNew_cons]
      by_cases hy : y ∈ acc
      · rw [if_pos hy, ih]
        constructor
        · intro h
          rcases h with h | h
          · exact Or.inl h
          · exact Or.inr (List.mem_cons_of_mem y h)
        · intro h
          rcases h with h | h
          · exact Or.inl h
          · rcases List.mem_cons.mp h with h | h
            · exact Or.inl (h ▸ hy)
            · exact Or.inr h
      · rw [if_neg hy, ih]
        simp only [List.mem_append, List.mem_singleton, List.mem_cons]
        tauto

theorem addNew_nodup (xs acc : List String) (h : acc.Nodup) :
    (addNew acc xs).Nodup := by
  induction xs generalizing acc with
  | nil => simpa [addNew] using h
  | cons y rest ih =>
      rw [addNew_cons]
      by_cases hy : y ∈ acc
      · rw [if_pos hy]; exact ih acc h
      · rw [if_neg hy]
        refine ih (acc ++ [y]) ?_
        simp [List.nodup_append, h, hy]

theorem addNew_eq_of_subset (xs acc : List String) (h : ∀ x ∈ xs, x ∈ acc) :
    addNew acc xs = acc := by
  induction xs generalizing acc with
  | nil => rfl
  | cons y rest ih =>
      rw [addNew_cons, if_pos (h y (List.mem_cons_self y rest))]
      exact ih acc (fun x hx => h x (List.mem_cons_of_mem y hx))

theorem addNew_length_lt (xs acc : List String) (h : ∃ x ∈ xs, x ∉ acc) :
    acc.length < (addNew acc xs).length := by
  induction xs generalizing acc with
  | nil => obtain ⟨x, hx, _⟩ := h; simp at hx
  | cons y rest ih =>
      rw [addNew_cons]
      by_cases hy : y ∈ acc
      · rw [if_pos hy]
        refine ih acc ?_
        obtain ⟨x, hx, hnx⟩ := h
        rcases List.mem_cons.mp hx with h1 | h1
        · exact absurd (h1 ▸ hy) hnx
        · exact ⟨x, h1, hnx⟩
      · rw [if_neg hy]
        calc acc.length < (acc ++ [y]).length := by simp
          _ ≤ (addNew (acc ++ [y]) rest).length := length_le_addNew rest (acc ++ [y])

theorem mem_buildStep (reg : Registry) (s : List String) (x : String) :
    x ∈ buildStep reg s ↔
      x ∈ s ∨ (isModelName reg x = true ∧ ∃ m ∈ s, x ∈ modelRefs reg m) := by
  rw [buildStep, mem_addNew]
  simp only [List.mem_filter, List.mem_flatMap]
  tauto

theorem subset_buildStep (reg : Registry) (s : List String) :
    ∀ x ∈ s, x ∈ buildStep reg s := by
  intro x hx
  exact (mem_buildStep reg s x).mpr (Or.inl hx)

theorem buildStep_nodup (reg : Registry) (s : List String) (h : s.Nodup) :
    (buildStep reg s).Nodup :=
  addNew_nodup _ s h

theorem buildStep_models (reg : Registry) (s : List String)
    (h : ∀ x ∈ s, isModelName reg x = true) :
    ∀ x ∈ buildStep reg s, isModelName reg x = true := by
  intro x hx
  rcases (mem_buildStep reg s x).mp hx with h1 | h1
  · exact h x h1
  · exact h1.1

theorem buildStep_eq_iff (reg : Registry) (s : List String) :
    buildStep reg s = s ↔
      ∀ m ∈ s, ∀ r ∈ modelRefs reg m, isModelName reg r = true → r ∈ s := by
  constructor
  · intro heq m hm r hr hmod
    have : r ∈ buildStep reg s := (mem_buildStep reg s r).mpr (Or.inr ⟨hmod, m, hm, hr⟩)
    rwa [heq] at this
  · intro h
    refine addNew_eq_of_subset _ s ?_
    intro x hx
    rcases List.mem_filter.mp hx with ⟨hmem, hmod⟩
    obtain ⟨m, hm, hr⟩ := List.mem_flatMap.mp hmem
    exact h m hm x hr hmod

theorem iterate_fix (reg : Registry) (s : List String) (h : buildStep reg s = s) :
    ∀ k, (buildStep reg)^[k] s = s := by
  intro k
  induction k with
  | zero => rfl
  | succ k ih => rw [Function.iterate_succ_apply', ih, h]

theorem iterate_nodup (reg : Registry) (s : List String) (h : s.Nodup) (k : Nat) :
    ((buildStep reg)^[k] s).Nodup := by
  induction k with
  | zero => exact h
  | succ k ih => rw [Function.iterate_succ_apply']; exact buildStep_nodup reg _ ih

theorem iterate_models (reg : Registry) (s : List String)
    (h : ∀ x ∈ s, isModelName reg x = true) (k : Nat) :
    ∀ x ∈ (buildStep reg)^[k] s, isModelName reg x = true := by
  induction k with
  | zero => exact h
  | succ k ih => rw [Function.iterate_succ_apply']; exact buildStep_models reg _ ih

theorem iterate_mono (reg : Registry) (s : List String) (k : Nat) :
    ∀ x ∈ s, x ∈ (buildStep reg)^[k] s := by
  induction k with
  | zero => exact fun x hx => hx
  | succ k ih =>
      intro x hx
      rw [Function.iterate_succ_apply']
      exact subset_buildStep reg _ x (ih x hx)

theorem modelName_mem_names (reg : Registry) (x : String)
    (h : isModelName reg x = true) : x ∈ reg.models.map (fun m => m.name) := by
  rw [isModelName, Option.isSome_iff_exists] at h
  obtain ⟨md, hmd⟩ := h
  have hmem := List.mem_of_find?_eq_some hmd
  have hprop := List.find?_some hmd
  simp only [decide_eq_true_eq] at hprop
  exact List.mem_map.mpr ⟨md, hmem, hprop⟩

theorem nodup_subset_length (s l : List String) (hn : s.Nodup) (h : ∀ x ∈ s, x ∈ l) :
    s.length ≤ l.length := by
  have hsub : s.toFinset ⊆ l.toFinset := by
    intro x hx
    rw [List.mem_toFinset] at hx ⊢
    exact h x hx
  calc s.length = s.toFinset.card := (List.toFinset_card_of_nodup hn).symm
    _ ≤ l.toFinset.card := Finset.card_le_card hsub
    _ ≤ l.length := l.toFinset_card_le

theorem nodup_models_length (reg : Registry) (s : List String) (hn : s.Nodup)
    (h : ∀ x ∈ s, isModelName reg x = true) : s.length ≤ reg.models.length := by
  calc s.length ≤ (reg.models.map (fun m => m.name)).length :=
        nodup_subset_length s _ hn (fun x hx => modelName_mem_names reg x (h x hx))
    _ = reg.models.length := List.length_map _ _

theorem iterate_growth (reg : Registry) (s : List String) (k : Nat) :
    (∃ j ≤ k, buildStep reg ((buildStep reg)^[j] s) = (buildStep reg)^[j] s) ∨
      s.length + k ≤ ((buildStep reg)^[k] s).length := by
  induction k with
  | zero => exact Or.inr (by simp)
  | succ k ih =>
      rcases ih with ⟨j, hj, hfix⟩ | hlen
      · exact Or.inl ⟨j, Nat.le_succ_of_le hj, hfix⟩
      · by_cases hfix : buildStep reg ((buildStep reg)^[k] s) = (buildStep reg)^[k] s
        · exact Or.inl ⟨k, Nat.le_succ k, hfix⟩
        · right
          rw [Function.iterate_succ_apply']
          have hlt : ((buildStep reg)^[k] s).length <
              (buildStep reg ((buildStep reg)^[k] s)).length := by
            obtain ⟨t, ht⟩ := addNew_exists_suffix
              ((((buildStep reg)^[k] s).flatMap (modelRefs reg)).filter
                (fun r => isModelName reg r)) ((buildStep reg)^[k] s)
            rcases t with _ | ⟨y, t⟩
            · exact absurd (by simpa using ht) hfix
            · rw [buildStep, ht]; simp
          omega

theorem buildModels_eq_iterate (reg : Registry) (targets : List String) :
    buildModels reg targets
      = (buildStep reg)^[reg.models.length + 1] (initialTargets reg targets) := rfl

theorem initialTargets_nodup (reg : Registry) (targets : List String) :
    (initialTargets reg targets).Nodup :=
  addNew_nodup _ [] List.nodup_nil

theorem mem_initialTargets (reg : Registry) (targets : List String) (x : String) :
    x ∈ initialTargets reg targets ↔ x ∈ targets ∧ isModelName reg x = true := by
  rw [initialTargets, mem_addNew]
  simp [List.mem_filter]

theorem buildModels_nodup (reg : Registry) (targets : List String) :
    (buildModels reg targets).Nodup :=
  iterate_nodup reg _ (initialTargets_nodup reg targets) _

theorem buildModels_models (reg : Registry) (targets : List String) :
    ∀ x ∈ buildModels reg targets, isModelName reg x = true :=
  iterate_models reg _ (fun x hx => ((mem_initialTargets reg targets x).mp hx).2) _

/-- The Graph Builder's discovery is closed: iterating one model past the
registry size saturates, so every model referenced by a discovered model is
itself discovered. -/
theorem buildModels_fix (reg : Registry) (targets : List String) :
    buildStep reg (buildModels reg targets) = buildModels reg targets := by
  set s₀ := initialTargets reg targets with hs₀
  rcases iterate_growth reg s₀ (reg.models.length + 1) with ⟨j, hj, hfix⟩ | hlen
  · have hiter : buildModels reg targets = (buildStep reg)^[j] s₀ := by
      rw [buildModels_eq_iterate, ← hs₀]
      have : reg.models.length + 1 = (reg.models.length + 1 - j) + j := by omega
      rw [this, Function.iterate_add_apply]
      exact iterate_fix reg _ hfix _
    rw [hiter]
    exact hfix
  · exfalso
    have hb : ((buildStep reg)^[reg.models.length + 1] s₀).length ≤ reg.models.length :=
      nodup_models_length reg _ (iterate_nodup reg _ (initialTargets_nodup reg targets) _)
        (iterate_models reg _ (fun x hx => ((mem_initialTargets reg targets x).mp hx).2) _)
    omega

theorem buildModels_closed (reg : Registry) (targets : List String) :
    ∀ m ∈ buildModels reg targets, ∀ r ∈ modelRefs reg m,
      isModelName reg r = true → r ∈ buildModels reg targets :=
  (buildStep_eq_iff reg _).mp (buildModels_fix reg targets)

theorem buildModels_sound (reg : Registry) (targets : List String) :
    ∀ x ∈ buildModels reg targets, Reaches reg targets x := by
  rw [buildModels_eq_iterate]
  generalize reg.models.length + 1 = k
  induction k with
  | zero =>
      intro x hx
      rcases (mem_initialTargets reg targets x).mp hx with ⟨ht, hm⟩
      exact Reaches.target ht hm
  | succ k ih =>
      intro x hx
      rw [Function.iterate_succ_apply'] at hx
      rcases (mem_buildStep reg _ x).mp hx with h1 | ⟨hmod, m, hm, hr⟩
      · exact ih x h1
      · exact Reaches.step (ih m hm) hr hmod

theorem buildModels_complete (reg : Registry) (targets : List String) :
    ∀ x, Reaches reg targets x → x ∈ buildModels reg targets := by
  intro x hx
  induction hx with
  | target ht hm =>
      exact iterate_mono reg _ _ _ ((mem_initialTargets reg targets _).mpr ⟨ht, hm⟩)
  | step _ hr hmod ih =>
      exact buildModels_closed reg targets _ ih _ hr hmod

/-! Claim C5: target-scoped discovery. -/

/-- C5: the Graph Builder's result contains exactly the models transitively
required to produce the targets — a model is discovered precisely when it is
reachable from a target via Primary or Auxiliary references, so everything
reachable is included and every registered model not reachable from any
target is excluded. -/
theorem claim5 (reg : Registry) (targets : List String) (x : String) :
    x ∈ buildModels reg targets ↔ Reaches reg targets x :=
  ⟨buildModels_sound reg targets x, buildModels_complete reg targets x⟩

/-! Helper lemmas for the scheduler. -/

theorem leChars_refl : ∀ l, leChars l l = true
  | [] => rfl
  | a :: as => by
      unfold leChars
      rw [if_neg (lt_irrefl _), if_neg (lt_irrefl _)]
      exact leChars_refl as

theorem leChars_total : ∀ l₁ l₂, leChars l₁ l₂ = false → leChars l₂ l₁ = true := by
  intro l₁
  induction l₁ with
  | nil => intro l₂ h; simp [leChars] at h
  | cons a as ih =>
      intro l₂ h
      cases l₂ with
      | nil => rfl
      | cons b bs =>
          unfold leChars at h ⊢
          by_cases h1 : a.toNat < b.toNat
          · rw [if_pos h1] at h; cases h
          · rw [if_neg h1] at h
            by_cases h2 : b.toNat < a.toNat
            · rw [if_pos h2]
            · rw [if_neg h2] at h
              rw [if_neg (by omega : ¬b.toNat < a.toNat), if_neg (by omega : ¬a.toNat < b.toNat)]
              exact ih bs h

theorem leChars_trans : ∀ l₁ l₂ l₃, leChars l₁ l₂ = true → leChars l₂ l₃ = true →
    leChars l₁ l₃ = true := by
  intro l₁
  induction l₁ with
  | nil => intro l₂ l₃ _ _; rfl
  | cons a as ih =>
      intro l₂ l₃ h1 h2
      cases l₂ with
      | nil => simp [leChars] at h1
      | cons b bs =>
          cases l₃ with
          | nil => simp [leChars] at h2
          | cons c cs =>
              unfold leChars at h1 h2 ⊢
              by_cases hab : a.toNat < b.toNat
              · by_cases hbc : b.toNat < c.toNat
                · rw [if_pos (by omega : a.toNat < c.toNat)]
                · rw [if_neg hbc] at h2
                  by_cases hcb : c.toNat < b.toNat
                  · rw [if_pos hcb] at h2; cases h2
                  · rw [if_pos (by omega : a.toNat < c.toNat)]
              · rw [if_neg hab] at h1
                by_cases hba : b.toNat < a.toNat
                · rw [if_pos hba] at h1; cases h1
                · rw [if_neg hba] at h1
                  by_cases hbc : b.toNat < c.toNat
                  · rw [if_pos (by omega : a.toNat < c.toNat)]
                  · rw [if_neg hbc] at h2
                    by_cases hcb : c.toNat < b.toNat
                    · rw [if_pos hcb] at h2; cases h2
                    · rw [if_neg hcb] at h2
                      rw [if_neg (by omega : ¬a.toNat < c.toNat),
                        if_neg (by omega : ¬c.toNat < a.toNat)]
                      exact ih bs cs h1 h2

theorem strLE_refl (x : String) : strLE x x = true :=
  leChars_refl x.data

theorem strLE_total (x y : String) (h : strLE x y = false) : strLE y x = true :=
  leChars_total x.data y.data h

theorem strLE_trans (x y z : String) (h1 : strLE x y = true) (h2 : strLE y z = true) :
    strLE x z = true :=
  leChars_trans x.data y.data z.data h1 h2

theorem listMin_cons (x : String) (xs : List String) :
    listMin (x :: xs)
      = match listMin xs with
        | none => some x
        | some y => some (if strLE x y then x else y) := rfl

theorem listMin_eq_none (l : List String) : listMin l = none ↔ l = [] := by
  cases l with
  | nil => simp [listMin]
  | cons x xs =>
      rw [listMin_cons]
      cases listMin xs <;> simp

theorem listMin_mem (l : List String) (m : String) (h : listMin l = some m) : m ∈ l := by
  induction l generalizing m with
  | nil => simp [listMin] at h
  | cons x xs ih =>
      rw [listMin_cons] at h
      cases hxs : listMin xs with
      | none =>
          rw [hxs] at h
          simp only [Option.some.injEq] at h
          exact h ▸ List.mem_cons_self x xs
      | some y =>
          rw [hxs] at h
          simp only [Option.some.injEq] at h
          by_cases hle : strLE x y = true
          · rw [if_pos hle] at h
            exact h ▸ List.mem_cons_self x xs
          · rw [if_neg hle] at h
            exact List.mem_cons_of_mem x (h ▸ ih y hxs)

theorem listMin_le (l : List String) (m : String) (h : listMin l = some m) :
    ∀ a ∈ l, strLE m a = true := by
  induction l generalizing m with
  | nil => simp [listMin] at h
  | cons x xs ih =>
      intro a ha
      rw [listMin_cons] at h
      cases hxs : listMin xs with
      | none =>
          rw [hxs] at h
          simp only [Option.some.injEq] at h
          have hnil : xs = [] := (listMin_eq_none xs).mp hxs
          subst hnil
          rcases List.mem_cons.mp ha with h1 | ha'
          · subst h1
            exact h ▸ strLE_refl a
          · simp at ha'
      | some y =>
          rw [hxs] at h
          simp only [Option.some.injEq] at h
          rcases List.mem_cons.mp ha with h1 | ha'
          · subst h1
            by_cases hle : strLE a y = true
            · rw [if_pos hle] at h
              exact h ▸ strLE_refl a
            · rw [if_neg hle] at h
              subst h
              exact strLE_total a y (by simpa using hle)
          · have hy : strLE y a = true := ih y hxs a ha'
            by_cases hle : strLE x y = true
            · rw [if_pos hle] at h
              subst h
              exact strLE_trans x y a hle hy
            · rw [if_neg hle] at h
              subst h
              exact hy

theorem ready_avail_mem (reg : Registry) (g placed remaining : List String)
    (hg : g.Nodup) (hperm : (placed ++ remaining).Perm g) :
    ∀ y, y ∈ readyList reg placed remaining ↔ y ∈ availList reg g placed := by
  have hnodup : (placed ++ remaining).Nodup := hperm.nodup_iff.mpr hg
  have hdisj : ∀ y ∈ placed, y ∉ remaining := by
    intro y hy hc
    rcases List.nodup_append.mp hnodup with ⟨_, _, hd⟩
    exact hd hy hc
  have hmem : ∀ y, y ∈ g ↔ y ∈ placed ∨ y ∈ remaining := by
    intro y
    rw [← hperm.mem_iff, List.mem_append]
  intro y
  rw [readyList, availList, List.mem_filter, List.mem_filter]
  constructor
  · rintro ⟨hrem, hall⟩
    refine ⟨(hmem y).mpr (Or.inr hrem), ?_⟩
    have hnp : y ∉ placed := fun hc => hdisj y hc hrem
    simp only [Bool.and_eq_true, Bool.not_eq_true']
    exact ⟨by simpa using hnp, hall⟩
  · rintro ⟨hing, hcond⟩
    simp only [Bool.and_eq_true, Bool.not_eq_true'] at hcond
    obtain ⟨hnp, hall⟩ := hcond
    have hnp' : y ∉ placed := by simpa using hnp
    rcases (hmem y).mp hing with h1 | h1
    · exact absurd h1 hnp'
    · exact ⟨h1, hall⟩

theorem kahnAux_ok (reg : Registry) (g : List String) (hg : g.Nodup) :
    ∀ (fuel : Nat) (placed remaining ord : List String),
      fuel = remaining.length →
      (placed ++ remaining).Perm g →
      kahnAux reg fuel placed remaining = Except.ok ord →
      ∃ suffix, ord = placed ++ suffix ∧ suffix.Perm remaining ∧
        topoOK reg placed suffix ∧ minChain reg g placed suffix := by
  intro fuel
  induction fuel with
  | zero =>
      intro placed remaining ord hfuel hperm hok
      have hrem : remaining = [] := List.length_eq_zero.mp hfuel.symm
      subst hrem
      simp only [kahnAux, if_pos rfl] at hok
      cases hok
      exact ⟨[], by simp, List.Perm.refl [], trivial, trivial⟩
  | succ fuel ih =>
      intro placed remaining ord hfuel hperm hok
      by_cases hrem : remaining = []
      · subst hrem
        simp only [kahnAux, if_pos rfl] at hok
        cases hok
        exact ⟨[], by simp, List.Perm.refl [], trivial, trivial⟩
      · rw [kahnAux, if_neg hrem] at hok
        cases hmin : listMin (readyList reg placed remaining) with
        | none => rw [hmin] at hok; cases hok
        | some n =>
            rw [hmin] at hok
            have hn_ready : n ∈ readyList reg placed remaining :=
              listMin_mem _ n hmin
            obtain ⟨hn_rem, hn_all⟩ := List.mem_filter.mp hn_ready
            have hn_deps : ∀ d ∈ depsIn reg n, d ∈ placed := by
              intro d hd
              have := List.all_eq_true.mp hn_all d hd
              simpa using this
            have hfuel' : fuel = (remaining.erase n).length := by
              rw [List.length_erase_of_mem hn_rem]
              omega
            have hperm' : ((placed ++ [n]) ++ remaining.erase n).Perm g := by
              have hpc : remaining.Perm (n :: remaining.erase n) :=
                List.perm_cons_erase hn_rem
              have heq : (placed ++ [n]) ++ remaining.erase n
                  = placed ++ (n :: remaining.erase n) := by simp
              rw [heq]
              exact (hpc.symm.append_left placed).trans hperm
            obtain ⟨suffix, hord, hsperm, htopo, hminc⟩ :=
              ih (placed ++ [n]) (remaining.erase n) ord hfuel' hperm' hok
            have havail := ready_avail_mem reg g placed remaining hg hperm
            refine ⟨n :: suffix, by simpa using hord,
              (hsperm.cons n).trans (List.perm_cons_erase hn_rem).symm,
              ⟨hn_deps, htopo⟩,
              ⟨⟨(havail n).mp hn_ready, fun m hm => listMin_le _ n hmin m ((havail m).mpr hm)⟩,
                hminc⟩⟩

theorem kahnAux_error (reg : Registry) (g : List String) (hg : g.Nodup)
    (hclosed : ∀ n ∈ g, ∀ d ∈ depsIn reg n, d ∈ g) :
    ∀ (fuel : Nat) (placed remaining r : List String),
      fuel = remaining.length →
      (placed ++ remaining).Perm g →
      kahnAux reg fuel placed remaining = Except.error r →
      r ≠ [] ∧ (∀ n ∈ r, n ∈ g) ∧ ∀ n ∈ r, ∃ d ∈ depsIn reg n, d ∈ r := by
  intro fuel
  induction fuel with
  | zero =>
      intro placed remaining r hfuel hperm herr
      have hrem : remaining = [] := List.length_eq_zero.mp hfuel.symm
      subst hrem
      simp [kahnAux] at herr
  | succ fuel ih =>
      intro placed remaining r hfuel hperm herr
      by_cases hrem : remaining = []
      · subst hrem
        simp [kahnAux] at herr
      · rw [kahnAux, if_neg hrem] at herr
        cases hmin : listMin (readyList reg placed remaining) with
        | some n =>
            rw [hmin] at herr
            have hn_rem : n ∈ remaining :=
              (List.mem_filter.mp (listMin_mem _ n hmin)).1
            have hfuel' : fuel = (remaining.erase n).length := by
              rw [List.length_erase_of_mem hn_rem]
              omega
            have hperm' : ((placed ++ [n]) ++ remaining.erase n).Perm g := by
              have hpc : remaining.Perm (n :: remaining.erase n) :=
                List.perm_cons_erase hn_rem
              have heq : (placed ++ [n]) ++ remaining.erase n
                  = placed ++ (n :: remaining.erase n) := by simp
              rw [heq]
              exact (hpc.symm.append_left placed).trans hperm
            exact ih (placed ++ [n]) (remaining.erase n) r hfuel' hperm' herr
        | none =>
            rw [hmin] at herr
            cases herr
            have hempty : readyList reg placed remaining = [] :=
              (listMin_eq_none _).mp hmin
            have hsub : ∀ n ∈ remaining, n ∈ g := by
              intro n hn
              exact hperm.mem_iff.mp (List.mem_append.mpr (Or.inr hn))
            refine ⟨hrem, hsub, ?_⟩
            intro n hn
            have hnready : ¬((depsIn reg n).all (fun d => decide (d ∈ placed)) = true) := by
              intro hc
              have : n ∈ readyList reg placed remaining :=
                List.mem_filter.mpr ⟨hn, hc⟩
              rw [hempty] at this
              simp at this
            have hex : ∃ d ∈ depsIn reg n, d ∉ placed := by
              by_contra hall
              push_neg at hall
              exact hnready (List.all_eq_true.mpr (fun d hd => by
                simpa using hall d hd))
            obtain ⟨d, hd, hdnp⟩ := hex
            refine ⟨d, hd, ?_⟩
            have hdg : d ∈ g := hclosed n (hsub n hn) d hd
            rcases List.mem_append.mp (hperm.mem_iff.mpr hdg) with h1 | h1
            · exact absurd h1 hdnp
            · exact h1

theorem topoOK_indexOf (reg : Registry) :
    ∀ (l placed : List String), topoOK reg placed l → l.Nodup →
      (∀ x ∈ placed, x ∉ l) →
      ∀ n ∈ l, ∀ d ∈ depsIn reg n,
        d ∈ placed ∨ (d ∈ l ∧ l.indexOf d < l.indexOf n) := by
  intro l
  induction l with
  | nil =>
      intro placed _ _ _ n hn
      simp at hn
  | cons a rest ih =>
      intro placed htopo hnodup hdisj n hn d hd
      obtain ⟨hdeps_a, htopo'⟩ := htopo
      have ha_rest : a ∉ rest := (List.nodup_cons.mp hnodup).1
      rcases List.mem_cons.mp hn with rfl | hn'
      · exact Or.inl (hdeps_a d hd)
      · have hna : n ≠ a := fun hc => ha_rest (hc ▸ hn')
        have hdisj' : ∀ x ∈ placed ++ [a], x ∉ rest := by
          intro x hx
          rcases List.mem_append.mp hx with h1 | h1
          · intro hc
            exact hdisj x h1 (List.mem_cons_of_mem a hc)
          · simp only [List.mem_singleton] at h1
            exact h1 ▸ ha_rest
        rcases ih (placed ++ [a]) htopo' (List.Nodup.of_cons hnodup) hdisj' n hn' d hd
          with h1 | ⟨h2, h3⟩
        · rcases List.mem_append.mp h1 with h1' | h1'
          · exact Or.inl h1'
          · simp only [List.mem_singleton] at h1'
            subst h1'
            refine Or.inr ⟨List.mem_cons_self d rest, ?_⟩
            rw [List.indexOf_cons_self]
            rw [List.indexOf_cons_ne rest (Ne.symm hna)]
            omega
        · have hda : d ≠ a := fun hc => ha_rest (hc ▸ h2)
          refine Or.inr ⟨List.mem_cons_of_mem a h2, ?_⟩
          rw [List.indexOf_cons_ne rest (Ne.symm hda),
            List.indexOf_cons_ne rest (Ne.symm hna)]
          omega

theorem scheduleG_ok (reg : Registry) (g ord : List String) (hg : g.Nodup)
    (hok : scheduleG reg g = Except.ok ord) :
    ord.Perm g ∧ ord.Nodup ∧ minChain reg g [] ord ∧
      ∀ n ∈ ord, ∀ d ∈ depsIn reg n, d ∈ ord ∧ ord.indexOf d < ord.indexOf n := by
  obtain ⟨suffix, hord, hperm, htopo, hminc⟩ :=
    kahnAux_ok reg g hg g.length [] g ord rfl (by simp) hok
  simp only [List.nil_append] at hord
  subst hord
  have hnodup : ord.Nodup := hperm.nodup_iff.mpr hg
  refine ⟨hperm, hnodup, hminc, ?_⟩
  intro n hn d hd
  rcases topoOK_indexOf reg ord [] htopo hnodup (by simp) n hn d hd with h1 | h1
  · simp at h1
  · exact h1

theorem buildProject_ok (reg : Registry) (targets : List String) (p : Project)
    (hp : buildProject reg targets = Except.ok p) :
    (validate reg targets).1 = [] ∧
    scheduleG reg (buildModels reg targets) = Except.ok p.order ∧
    p.models = (buildModels reg targets).filterMap
      (fun n => (findModel reg n).map (fun m => (n, m))) ∧
    p.graph = graphEdges reg (buildModels reg targets) := by
  rw [buildProject] at hp
  by_cases hes : (validate reg targets).1 = []
  · rw [if_pos hes] at hp
    cases hsch : scheduleG reg (buildModels reg targets) with
    | ok order =>
        rw [hsch] at hp
        cases hp
        exact ⟨hes, rfl, rfl, rfl⟩
    | error r =>
        rw [hsch] at hp
        cases hp
  · rw [if_neg hes] at hp
    cases hp

theorem mem_graphEdges (reg : Registry) (g : List String) (e : DependencyEdge)
    (he : e ∈ graphEdges reg g) :
    e.fromModel ∈ g ∧ e.toSource ∈ modelRefs reg e.fromModel := by
  obtain ⟨n, hn, he'⟩ := List.mem_flatMap.mp he
  cases hfm : findModel reg n with
  | none =>
      rw [hfm] at he'
      simp at he'
  | some m =>
      rw [hfm] at he'
      rcases List.mem_cons.mp he' with h1 | he''
      · subst h1
        refine ⟨hn, ?_⟩
        simp only [modelRefs, hfm, refsOfDef]
        exact List.mem_cons_self _ _
      · obtain ⟨r, hr, h2⟩ := List.mem_map.mp he''
        subst h2
        refine ⟨hn, ?_⟩
        simp only [modelRefs, hfm, refsOfDef]
        exact List.mem_cons_of_mem _ hr

/-! Claims C1 and C3: topological scheduling and determinism. -/

/-- C1: for every successfully constructed Project (hence every acyclic
dependency graph), the scheduled order places the target of every
DependencyEdge whose `to` is a Model strictly before its `from`, with
Auxiliary edges imposing ordering exactly as Primary edges (the statement
quantifies over every edge regardless of kind). -/
theorem claim1 (reg : Registry) (targets : List String) (p : Project) (e : DependencyEdge)
    (hp : buildProject reg targets = Except.ok p)
    (he : e ∈ p.graph)
    (ht : isModelName reg e.toSource = true) :
    e.toSource ∈ p.order ∧ e.fromModel ∈ p.order ∧
      p.order.indexOf e.toSource < p.order.indexOf e.fromModel := by
  obtain ⟨hes, hsch, hmodels, hgraph⟩ := buildProject_ok reg targets p hp
  rw [hgraph] at he
  obtain ⟨hfrom_g, hto_refs⟩ := mem_graphEdges reg _ e he
  have hdep : e.toSource ∈ depsIn reg e.fromModel :=
    List.mem_filter.mpr ⟨hto_refs, by simpa using ht⟩
  obtain ⟨hperm, hnodup, hminc, hidx⟩ :=
    scheduleG_ok reg _ p.order (buildModels_nodup reg targets) hsch
  have hfrom_ord : e.fromModel ∈ p.order := hperm.mem_iff.mpr hfrom_g
  obtain ⟨hto_ord, hlt⟩ := hidx e.fromModel hfrom_ord e.toSource hdep
  exact ⟨hto_ord, hfrom_ord, hlt⟩

/-- Witness for C1 at the demo registry: the auxiliary edge from `a` to `c`
forces `c` to be scheduled strictly before `a`. -/
theorem claim1_witness :
    buildProject demoReg ["a"] = Except.ok demoProj ∧
    (⟨"a", "c", EdgeKind.auxiliary⟩ : DependencyEdge) ∈ demoProj.graph ∧
    "c" ∈ demoProj.order ∧ "a" ∈ demoProj.order ∧
    demoProj.order.indexOf "c" < demoProj.order.indexOf "a" := by
  have h := claim1 demoReg ["a"] demoProj ⟨"a", "c", EdgeKind.auxiliary⟩
    rfl (by decide) (by decide)
  exact ⟨rfl, by decide, h.1, h.2.1, h.2.2⟩

/-- C3: `validate` and `schedule` are pure functions, so two runs on
identical input yield identical error and warning sequences and identical
orders; moreover the order satisfies the name-ascending tie break — at
every position the emitted model is the least-named model all of whose
dependencies are already placed. -/
theorem claim3 (reg : Registry) (targets : List String) (ord : List String)
    (hok : scheduleG reg (buildModels reg targets) = Except.ok ord) :
    validate reg targets = validate reg targets ∧
    scheduleG reg (buildModels reg targets) = scheduleG reg (buildModels reg targets) ∧
    minChain reg (buildModels reg targets) [] ord :=
  ⟨rfl, rfl,
    (scheduleG_ok reg _ ord (buildModels_nodup reg targets) hok).2.2.1⟩

/-- Witness for C3 at the demo registry: the scheduled order is
`b, d, c, a` — `b` and `d` are both ready initially and `b` wins the
name-ascending tie break. -/
theorem claim3_witness :
    scheduleG demoReg (buildModels demoReg ["a"]) = Except.ok ["b", "d", "c", "a"] ∧
    minChain demoReg (buildModels demoReg ["a"]) [] ["b", "d", "c", "a"] := by
  have h := claim3 demoReg ["a"] ["b", "d", "c", "a"] (by rfl)
  exact ⟨rfl, h.2.2⟩

/-! Helper lemmas for cycle detection and reporting. -/

theorem lastOf_cons_cons (a b : String) (rest : List String) :
    lastOf (a :: b :: rest) = lastOf (b :: rest) := rfl

theorem lastOf_cons_of_ne_nil (a : String) (l : List String) (h : l ≠ []) :
    lastOf (a :: l) = lastOf l := by
  cases l with
  | nil => exact absurd rfl h
  | cons b rest => rfl

theorem revRefChainB_cons (reg : Registry) (a b : String) (rest : List String) :
    revRefChainB reg (a :: b :: rest)
      = (decide (a ∈ depsIn reg b) && revRefChainB reg (b :: rest)) := rfl

theorem revRefChainB_take (reg : Registry) :
    ∀ (l : List String) (k : Nat), revRefChainB reg l = true →
      revRefChainB reg (l.take k) = true := by
  intro l
  induction l with
  | nil => intro k _; simp [List.take_nil]; rfl
  | cons a rest ih =>
      intro k h
      cases k with
      | zero => rfl
      | succ j =>
          cases rest with
          | nil => simpa using h
          | cons b rest' =>
              cases j with
              | zero => rfl
              | succ i =>
                  rw [revRefChainB_cons, Bool.and_eq_true] at h
                  obtain ⟨hab, hchain⟩ := h
                  have hih := ih (i + 1) hchain
                  have hshape : (a :: b :: rest').take (i + 1 + 1)
                      = a :: ((b :: rest').take (i + 1)) := rfl
                  rw [hshape]
                  have hshape2 : (b :: rest').take (i + 1) = b :: rest'.take i := rfl
                  rw [hshape2] at hih ⊢
                  rw [revRefChainB_cons, Bool.and_eq_true]
                  exact ⟨hab, hih⟩

theorem lastOf_take_indexOf (d : String) :
    ∀ (l : List String), d ∈ l → lastOf (l.take (l.indexOf d + 1)) = d := by
  intro l
  induction l with
  | nil => intro h; simp at h
  | cons a rest ih =>
      intro h
      by_cases hda : d = a
      · subst hda
        rw [List.indexOf_cons_self]
        rfl
      · have hd_rest : d ∈ rest := by
          rcases List.mem_cons.mp h with h1 | h1
          · exact absurd h1 hda
          · exact h1
        rw [List.indexOf_cons_ne rest (Ne.symm hda)]
        have hshape : (a :: rest).take (rest.indexOf d + 1 + 1)
            = a :: rest.take (rest.indexOf d + 1) := rfl
        rw [hshape]
        have hne : rest.take (rest.indexOf d + 1) ≠ [] := by
          cases hr : rest with
          | nil => simp [hr] at hd_rest
          | cons x xs => simp [hr]
        rw [lastOf_cons_of_ne_nil _ _ hne]
        exact ih hd_rest

theorem headD_mem (l : List String) (h : l ≠ []) : l.headD "" ∈ l := by
  cases l with
  | nil => exact absurd rfl h
  | cons x xs => exact List.mem_cons_self x xs

theorem walkCycle_succ_some (reg : Registry) (r : List String) (fuel : Nat)
    (n : String) (path : List String) (d : String)
    (hpd : pickDep reg r n = some d) :
    walkCycle reg r (fuel + 1) n path
      = if d ∈ n :: path then some ((n :: path).take ((n :: path).indexOf d + 1))
        else walkCycle reg r fuel d (n :: path) := by
  rw [walkCycle, hpd]

theorem walkCycle_spec (reg : Registry) (r : List String)
    (hstuck : ∀ m ∈ r, ∃ d ∈ depsIn reg m, d ∈ r) :
    ∀ (fuel : Nat) (n : String) (path : List String),
      n ∈ r → (∀ x ∈ path, x ∈ r) →
      (n :: path).Nodup →
      revRefChainB reg (n :: path) = true →
      fuel + (n :: path).length = r.length + 1 →
      ∃ c, walkCycle reg r fuel n path = some c ∧ cyclePathOK reg c = true ∧
        (∀ x ∈ c, x ∈ r) ∧ c ≠ [] := by
  intro fuel
  induction fuel with
  | zero =>
      intro n path hn hpath hnodup _ hlen
      exfalso
      have hsub : ∀ x ∈ n :: path, x ∈ r := by
        intro x hx
        rcases List.mem_cons.mp hx with h1 | h1
        · exact h1 ▸ hn
        · exact hpath x h1
      have := nodup_subset_length (n :: path) r hnodup hsub
      omega
  | succ fuel ih =>
      intro n path hn hpath hnodup hchain hlen
      obtain ⟨d0, hd0, hd0r⟩ := hstuck n hn
      have hfilter : d0 ∈ (depsIn reg n).filter (fun d => decide (d ∈ r)) :=
        List.mem_filter.mpr ⟨hd0, by simpa using hd0r⟩
      obtain ⟨d, hpd, hd_dep, hd_r⟩ :
          ∃ d, pickDep reg r n = some d ∧ d ∈ depsIn reg n ∧ d ∈ r := by
        cases hf : (depsIn reg n).filter (fun d => decide (d ∈ r)) with
        | nil => rw [hf] at hfilter; simp at hfilter
        | cons x xs =>
            have hx : x ∈ (depsIn reg n).filter (fun d => decide (d ∈ r)) := by
              rw [hf]; exact List.mem_cons_self x xs
            obtain ⟨hx1, hx2⟩ := List.mem_filter.mp hx
            exact ⟨x, by rw [pickDep, hf]; rfl, hx1, by simpa using hx2⟩
      rw [walkCycle_succ_some reg r fuel n path d hpd]
      by_cases hmem : d ∈ n :: path
      · rw [if_pos hmem]
        refine ⟨(n :: path).take ((n :: path).indexOf d + 1), rfl, ?_, ?_, ?_⟩
        · have hlast : lastOf ((n :: path).take ((n :: path).indexOf d + 1)) = d :=
            lastOf_take_indexOf d (n :: path) hmem
          have hch : revRefChainB reg ((n :: path).take ((n :: path).indexOf d + 1)) = true :=
            revRefChainB_take reg (n :: path) _ hchain
          have hshape : (n :: path).take ((n :: path).indexOf d + 1)
              = n :: path.take ((n :: path).indexOf d) := rfl
          rw [hshape] at hlast hch ⊢
          rw [cyclePathOK]
          rw [Bool.and_eq_true]
          exact ⟨hch, by rw [hlast]; simpa using hd_dep⟩
        · intro x hx
          rcases List.mem_cons.mp (List.mem_of_mem_take hx) with h1 | h1
          · exact h1 ▸ hn
          · exact hpath x h1
        · simp
      · rw [if_neg hmem]
        have hres := ih d (n :: path) hd_r
          (fun x hx => by
            rcases List.mem_cons.mp hx with h1 | h1
            · exact h1 ▸ hn
            · exact hpath x h1)
          (List.nodup_cons.mpr ⟨hmem, hnodup⟩)
          (by
            rw [revRefChainB_cons, Bool.and_eq_true]
            exact ⟨by simpa using hd_dep, hchain⟩)
          (by simp at hlen ⊢; omega)
        obtain ⟨c, hc1, hc2, hc3, hc4⟩ := hres
        exact ⟨c, hc1, hc2, hc3, hc4⟩

theorem depsClosed_buildModels (reg : Registry) (targets : List String) :
    ∀ n ∈ buildModels reg targets, ∀ d ∈ depsIn reg n, d ∈ buildModels reg targets := by
  intro n hn d hd
  obtain ⟨hd1, hd2⟩ := List.mem_filter.mp hd
  exact buildModels_closed reg targets n hn d hd1 (by simpa using hd2)

theorem revRefChain_indexOf_le (reg : Registry) (ord : List String)
    (hidx : ∀ n ∈ ord, ∀ d ∈ depsIn reg n, d ∈ ord ∧ ord.indexOf d < ord.indexOf n) :
    ∀ (rest : List String) (a : String), revRefChainB reg (a :: rest) = true →
      (∀ x ∈ a :: rest, x ∈ ord) →
      ord.indexOf a ≤ ord.indexOf (lastOf (a :: rest)) := by
  intro rest
  induction rest with
  | nil => intro a _ _; exact Nat.le_refl _
  | cons b rest' ih =>
      intro a hchain hmem
      rw [revRefChainB_cons, Bool.and_eq_true] at hchain
      obtain ⟨hab, hchain'⟩ := hchain
      have hb_ord : b ∈ ord := hmem b (List.mem_cons_of_mem a (List.mem_cons_self b rest'))
      have hlt : ord.indexOf a < ord.indexOf b :=
        (hidx b hb_ord a (by simpa using hab)).2
      have hle : ord.indexOf b ≤ ord.indexOf (lastOf (b :: rest')) :=
        ih b hchain' (fun x hx => hmem x (List.mem_cons_of_mem a hx))
      rw [lastOf_cons_cons]
      omega

/-! Claim C2: cyclic input fails construction with a reported cycle path. -/

/-- C2: whenever the references of the discovered models form a dependency
cycle (an ordered cycle path all of whose models are in the built graph),
Project construction fails — no Project value is produced — and the raised
errors contain a `CyclicDependency` naming an ordered cycle path of
discovered models. -/
theorem claim2 (reg : Registry) (targets : List String) (c : List String)
    (hc : cyclePathOK reg c = true)
    (hmem : ∀ x ∈ c, x ∈ buildModels reg targets) :
    ∃ es, buildProject reg targets = Except.error es ∧
      ∃ path, ValidationError.cyclicDependency path ∈ es ∧
        cyclePathOK reg path = true ∧ path ≠ [] ∧
        ∀ x ∈ path, x ∈ buildModels reg targets := by
  obtain ⟨h0, rest, hcshape⟩ : ∃ h0 rest, c = h0 :: rest := by
    cases c with
    | nil => simp [cyclePathOK] at hc
    | cons h0 rest => exact ⟨h0, rest, rfl⟩
  subst hcshape
  rw [cyclePathOK, Bool.and_eq_true] at hc
  obtain ⟨hchain, hwrap⟩ := hc
  have hwrap' : lastOf (h0 :: rest) ∈ depsIn reg h0 := by simpa using hwrap
  -- scheduling the discovered graph cannot succeed
  have herr : ∃ r, scheduleG reg (buildModels reg targets) = Except.error r := by
    cases hsch : scheduleG reg (buildModels reg targets) with
    | error r => exact ⟨r, rfl⟩
    | ok ord =>
        exfalso
        obtain ⟨hperm, _, _, hidx⟩ :=
          scheduleG_ok reg _ ord (buildModels_nodup reg targets) hsch
        have hord_mem : ∀ x ∈ h0 :: rest, x ∈ ord :=
          fun x hx => hperm.mem_iff.mpr (hmem x hx)
        have hle := revRefChain_indexOf_le reg ord hidx rest h0 hchain hord_mem
        have hlt : ord.indexOf (lastOf (h0 :: rest)) < ord.indexOf h0 :=
          (hidx h0 (hord_mem h0 (List.mem_cons_self h0 rest)) _ hwrap').2
        omega
  obtain ⟨r, hsch⟩ := herr
  obtain ⟨hrne, hrsub, hrstuck⟩ :=
    kahnAux_error reg (buildModels reg targets) (buildModels_nodup reg targets)
      (depsClosed_buildModels reg targets) (buildModels reg targets).length []
      (buildModels reg targets) r rfl (by simp) hsch
  have hstuck' : ∀ m ∈ r, ∃ d ∈ depsIn reg m, d ∈ r := hrstuck
  obtain ⟨path, hwalk, hpathOK, hpathsub, hpathne⟩ :=
    walkCycle_spec reg r hstuck' r.length (r.headD "") [] (headD_mem r hrne)
      (by intro x hx; simp at hx) (by simp) rfl (by simp)
  have hcycErr : cycleErrors reg (buildModels reg targets)
      = [ValidationError.cyclicDependency path] := by
    have hstep : cycleErrors reg (buildModels reg targets)
        = match walkCycle reg r r.length (r.headD "") [] with
          | some c => [ValidationError.cyclicDependency c]
          | none => [ValidationError.cyclicDependency r] := by
      rw [cycleErrors, hsch]
    rw [hstep, hwalk]
  have hmemErr : ValidationError.cyclicDependency path ∈ (validate reg targets).1 := by
    rw [validate]
    simp only [List.mem_append]
    right
    rw [hcycErr]
    exact List.mem_cons_self _ _
  have hesne : (validate reg targets).1 ≠ [] := by
    intro hcontra
    rw [hcontra] at hmemErr
    simp at hmemErr
  refine ⟨(validate reg targets).1, ?_, path, hmemErr, hpathOK, hpathne, ?_⟩
  · rw [buildProject, if_neg hesne]
  · intro x hx
    exact hrsub x (hpathsub x hx)

/-- Witness for C2 at the concrete two-model cycle `a` built from `b`,
`b` looking up `a`: construction fails and a cycle path is reported. -/
theorem claim2_witness :
    cyclePathOK cycReg ["b", "a"] = true ∧
    (∃ es, buildProject cycReg ["a"] = Except.error es ∧
      ∃ path, ValidationError.cyclicDependency path ∈ es ∧
        cyclePathOK cycReg path = true ∧ path ≠ [] ∧
        ∀ x ∈ path, x ∈ buildModels cycReg ["a"]) :=
  ⟨by decide, claim2 cycReg ["a"] ["b", "a"] (by decide) (by decide)⟩

/-! Claim C7: unknown source references. -/

theorem unknownErrors_mem (reg : Registry) (g : List String) (m : String) (md : ModelDef)
    (hm : m ∈ g) (hfind : findModel reg m = some md) (r : String)
    (hr : r ∈ refsOfDef md) (hunk : isKnownSource reg r = false) :
    ValidationError.unknownSourceReference r m ∈ unknownErrors reg g := by
  rw [unknownErrors]
  apply List.mem_flatMap.mpr
  refine ⟨m, hm, ?_⟩
  simp only [hfind]
  apply List.mem_map.mpr
  exact ⟨r, List.mem_filter.mpr ⟨hr, by simp [hunk]⟩, rfl⟩

/-- C7: a primary or auxiliary reference to a name absent from the registry
makes Project construction fail with an `UnknownSourceReference` error
naming the missing source and the referencing model, raised by the
Validator; the Reference Scanner itself is pure and total — its result does
not depend on `knownSources` at all, and its auxiliary output simply lists
the scanned names, unknown ones included, without failing. -/
theorem claim7 (reg : Registry) (targets : List String) (m : String) (md : ModelDef)
    (r : String)
    (hm : m ∈ buildModels reg targets)
    (hfind : findModel reg m = some md)
    (hr : r ∈ refsOfDef md)
    (hunk : isKnownSource reg r = false) :
    ValidationError.unknownSourceReference r m ∈ (validate reg targets).1 ∧
    (∃ es, buildProject reg targets = Except.error es ∧
      ValidationError.unknownSourceReference r m ∈ es) ∧
    (∀ ks₁ ks₂ : List String, scan md.primary md.stages ks₁ = scan md.primary md.stages ks₂) ∧
    (scan md.primary md.stages []).auxiliary = scanAux md.stages := by
  have hmem : ValidationError.unknownSourceReference r m ∈ (validate reg targets).1 := by
    rw [validate]
    simp only [List.mem_append]
    exact Or.inl (Or.inr (unknownErrors_mem reg _ m md hm hfind r hr hunk))
  have hne : (validate reg targets).1 ≠ [] := by
    intro h
    rw [h] at hmem
    simp at hmem
  refine ⟨hmem, ⟨(validate reg targets).1, ?_, hmem⟩, fun ks₁ ks₂ => rfl, rfl⟩
  rw [buildProject, if_neg hne]

/-- Witness for C7 at the concrete registry whose model `a` looks up the
unregistered name `ghost`. -/
theorem claim7_witness :
    ValidationError.unknownSourceReference "ghost" "a" ∈ (validate unkReg ["a"]).1 ∧
    (∃ es, buildProject unkReg ["a"] = Except.error es ∧
      ValidationError.unknownSourceReference "ghost" "a" ∈ es) := by
  have h := claim7 unkReg ["a"] "a"
    ⟨"a", "raw", [Stage.lookupSt "ghost" ⟨none, none, "j"⟩ none], "out_a",
      Materialization.replace⟩ "ghost" (by decide) rfl (by decide) (by decide)
  exact ⟨h.1, h.2.1⟩

/-! Claim C6: the Project is immutable across runs. -/

theorem execStep_proj (cap : String → Bool) (pol : FailurePolicy) (st : ExecState)
    (m : String) : (execStep cap pol st m).proj = st.proj := by
  rw [execStep]
  split
  · rfl
  · split <;> rfl

theorem runFold_proj (cap : String → Bool) (pol : FailurePolicy) :
    ∀ (l : List String) (st : ExecState),
      (l.foldl (execStep cap pol) st).proj = st.proj := by
  intro l
  induction l with
  | nil => intro st; rfl
  | cons m rest ih =>
      intro st
      rw [List.foldl_cons, ih, execStep_proj]

/-- C6: `run()` never mutates the Project — after any call, including
repeated calls, the `models` mapping, `graph` edge set and scheduled
`order` are exactly as fixed at construction, and only the per-run
RunResult is produced afresh, identically on identical calls. -/
theorem claim6 (p : Project) (cap : String → Bool) (pol : FailurePolicy) :
    (runProject p cap pol).2 = p ∧
    (runProject p cap pol).2.models = p.models ∧
    (runProject p cap pol).2.graph = p.graph ∧
    (runProject p cap pol).2.order = p.order ∧
    runProject ((runProject p cap pol).2) cap pol = runProject p cap pol := by
  have h : (runProject p cap pol).2 = p :=
    runFold_proj cap pol p.order ⟨p, [], [], false⟩
  exact ⟨h, by rw [h], by rw [h], by rw [h], by rw [h]⟩

/-! Helper lemmas for the Executor. -/

theorem lookup_append (a : String) (l₁ l₂ : List (String × ModelStatus)) :
    List.lookup a (l₁ ++ l₂)
      = match List.lookup a l₁ with
        | some v => some v
        | none => List.lookup a l₂ := by
  induction l₁ with
  | nil => rfl
  | cons p rest ih =>
      obtain ⟨k, v⟩ := p
      rw [List.cons_append]
      show List.lookup a ((k, v) :: (rest ++ l₂)) = _
      by_cases hak : a = k
      · subst hak
        simp [List.lookup]
      · have hbeq : (a == k) = false := by
          simp [hak]
        simp [List.lookup, hbeq, ih]

theorem lookup_isSome_iff (a : String) (t : List (String × ModelStatus)) :
    (List.lookup a t).isSome = true ↔ a ∈ t.map Prod.fst := by
  induction t with
  | nil => simp [List.lookup]
  | cons p rest ih =>
      obtain ⟨k, v⟩ := p
      by_cases hak : a = k
      · subst hak
        simp [List.lookup]
      · have hbeq : (a == k) = false := by
          simp [hak]
        simp [List.lookup, hbeq, ih, hak]

theorem execStep_results (cap : String → Bool) (pol : FailurePolicy) (st : ExecState)
    (m : String) :
    ∃ s, (execStep cap pol st m).results = st.results ++ [(m, s)] := by
  rw [execStep]
  split
  · exact ⟨ModelStatus.skipped, rfl⟩
  · split
    · exact ⟨ModelStatus.succeeded, rfl⟩
    · exact ⟨ModelStatus.failed, rfl⟩

theorem execStep_invoked (cap : String → Bool) (pol : FailurePolicy) (st : ExecState)
    (m : String) :
    (execStep cap pol st m).invoked = st.invoked ∨
      (execStep cap pol st m).invoked = st.invoked ++ [m] := by
  rw [execStep]
  split
  · exact Or.inl rfl
  · split
    · exact Or.inr rfl
    · exact Or.inr rfl

theorem runFold_results (cap : String → Bool) (pol : FailurePolicy) :
    ∀ (l : List String) (st : ExecState),
      ∃ t, (l.foldl (execStep cap pol) st).results = st.results ++ t ∧
        t.map Prod.fst = l := by
  intro l
  induction l with
  | nil => intro st; exact ⟨[], by simp, rfl⟩
  | cons m rest ih =>
      intro st
      rw [List.foldl_cons]
      obtain ⟨s, hs⟩ := execStep_results cap pol st m
      obtain ⟨t, ht, hkeys⟩ := ih (execStep cap pol st m)
      refine ⟨(m, s) :: t, ?_, by simp [hkeys]⟩
      rw [ht, hs]
      simp

theorem runFold_invoked (cap : String → Bool) (pol : FailurePolicy) :
    ∀ (l : List String) (st : ExecState),
      ∃ t, (l.foldl (execStep cap pol) st).invoked = st.invoked ++ t ∧
        ∀ x ∈ t, x ∈ l := by
  intro l
  induction l with
  | nil => intro st; exact ⟨[], by simp, by simp⟩
  | cons m rest ih =>
      intro st
      rw [List.foldl_cons]
      obtain ⟨t, ht, hsub⟩ := ih (execStep cap pol st m)
      rcases execStep_invoked cap pol st m with h1 | h1
      · refine ⟨t, by rw [ht, h1], ?_⟩
        intro x hx
        exact List.mem_cons_of_mem m (hsub x hx)
      · refine ⟨m :: t, by rw [ht, h1]; simp, ?_⟩
        intro x hx
        rcases List.mem_cons.mp hx with h2 | h2
        · exact h2 ▸ List.mem_cons_self m rest
        · exact List.mem_cons_of_mem m (hsub x h2)

theorem runFold_lookup_stable (cap : String → Bool) (pol : FailurePolicy)
    (st : ExecState) (l₁ l₂ : List String) (m : String) (hm : m ∈ l₁) :
    List.lookup m ((l₁ ++ l₂).foldl (execStep cap pol) st).results
      = List.lookup m (l₁.foldl (execStep cap pol) st).results := by
  rw [List.foldl_append]
  obtain ⟨t, ht, hkeys⟩ := runFold_results cap pol l₂ (l₁.foldl (execStep cap pol) st)
  rw [ht, lookup_append]
  obtain ⟨t₁, ht₁, hkeys₁⟩ := runFold_results cap pol l₁ st
  have hsome : (List.lookup m (l₁.foldl (execStep cap pol) st).results).isSome = true := by
    rw [lookup_isSome_iff, ht₁]
    simp only [List.map_append, List.mem_append]
    right
    rw [hkeys₁]
    exact hm
  cases hlk : List.lookup m (l₁.foldl (execStep cap pol) st).results with
  | none => rw [hlk] at hsome; simp at hsome
  | some v => rfl

theorem lookup_modelsMap (reg : Registry) :
    ∀ (g : List String), (∀ n ∈ g, isModelName reg n = true) → ∀ x,
      List.lookup x (g.filterMap (fun n => (findModel reg n).map (fun md => (n, md))))
        = if x ∈ g then findModel reg x else none := by
  intro g
  induction g with
  | nil =>
      intro _ x
      simp [List.lookup]
  | cons n rest ih =>
      intro hall x
      obtain ⟨md, hmd⟩ := Option.isSome_iff_exists.mp (hall n (List.mem_cons_self n rest))
      have hfm : (rest.filterMap (fun n => (findModel reg n).map (fun md => (n, md)))) =
          rest.filterMap (fun n => (findModel reg n).map (fun md => (n, md))) := rfl
      rw [List.filterMap_cons, hmd]
      simp only [Option.map_some']
      by_cases hxn : x = n
      · subst hxn
        have hbeq : (x == x) = true := by simp
        simp [List.lookup, hmd]
      · have hbeq : (x == n) = false := by simp [hxn]
        have htail := ih (fun y hy => hall y (List.mem_cons_of_mem n hy)) x
        simp only [List.lookup, hbeq]
        rw [htail]
        by_cases hxr : x ∈ rest
        · rw [if_pos hxr, if_pos (List.mem_cons_of_mem n hxr)]
        · rw [if_neg hxr, if_neg (by
            intro hc
            rcases List.mem_cons.mp hc with h1 | h1
            · exact hxn h1
            · exact hxr h1)]

theorem modelRefs_eq_of_find (reg : Registry) (a : String) (md : ModelDef)
    (hmd : findModel reg a = some md) : modelRefs reg a = refsOfDef md := by
  rw [modelRefs, hmd]

theorem projDeps_eq_depsIn (reg : Registry) (targets : List String) (p : Project)
    (hp : buildProject reg targets = Except.ok p) (a : String)
    (ha : a ∈ buildModels reg targets) :
    ∀ d, d ∈ projDeps p a ↔ d ∈ depsIn reg a := by
  obtain ⟨_, _, hmodels, _⟩ := buildProject_ok reg targets p hp
  have hall : ∀ n ∈ buildModels reg targets, isModelName reg n = true :=
    buildModels_models reg targets
  have hlk : ∀ x, List.lookup x p.models
      = if x ∈ buildModels reg targets then findModel reg x else none := by
    intro x
    rw [hmodels]
    exact lookup_modelsMap reg _ hall x
  obtain ⟨md, hmd⟩ := Option.isSome_iff_exists.mp (hall a ha)
  have hPD : projDeps p a
      = (refsOfDef md).filter (fun r => (List.lookup r p.models).isSome) := by
    rw [projDeps]
    rw [show List.lookup a p.models = some md from by rw [hlk a, if_pos ha, hmd]]
  intro d
  rw [hPD, depsIn, modelRefs_eq_of_find reg a md hmd]
  constructor
  · intro hdf
    obtain ⟨hd1, hd2⟩ := List.mem_filter.mp hdf
    have hd_g : d ∈ buildModels reg targets := by
      by_contra hc
      rw [hlk d, if_neg hc] at hd2
      simp at hd2
    exact List.mem_filter.mpr ⟨hd1, by simpa using hall d hd_g⟩
  · intro hdd
    obtain ⟨hd1, hd2⟩ := List.mem_filter.mp hdd
    have hd_model : isModelName reg d = true := by simpa using hd2
    have hd_g : d ∈ buildModels reg targets :=
      buildModels_closed reg targets a ha d
        (by rwa [modelRefs_eq_of_find reg a md hmd]) hd_model
    refine List.mem_filter.mpr ⟨hd1, ?_⟩
    rw [hlk d, if_pos hd_g]
    simpa [isModelName] using hd_model

theorem mem_take_indexOf_lt (a : String) :
    ∀ (l : List String) (k : Nat), a ∈ l.take k → l.indexOf a < k := by
  intro l
  induction l with
  | nil => intro k h; simp at h
  | cons x xs ih =>
      intro k h
      cases k with
      | zero => simp at h
      | succ j =>
          by_cases hax : a = x
          · subst hax
            rw [List.indexOf_cons_self]
            omega
          · have ha_tail : a ∈ xs.take j := by
              rcases List.mem_cons.mp (by simpa using h) with h1 | h1
              · exact absurd h1 hax
              · exact h1
            rw [List.indexOf_cons_ne xs (Ne.symm hax)]
            have := ih j ha_tail
            omega

theorem indexOf_lt_mem_take (a : String) :
    ∀ (l : List String) (k : Nat), a ∈ l → l.indexOf a < k → a ∈ l.take k := by
  intro l
  induction l with
  | nil => intro k h; simp at h
  | cons x xs ih =>
      intro k h hlt
      by_cases hax : a = x
      · subst hax
        cases k with
        | zero => rw [List.indexOf_cons_self] at hlt; omega
        | succ j => simp
      · have ha_tail : a ∈ xs := by
          rcases List.mem_cons.mp h with h1 | h1
          · exact absurd h1 hax
          · exact h1
        rw [List.indexOf_cons_ne xs (Ne.symm hax)] at hlt
        cases k with
        | zero => omega
        | succ j =>
            have := ih j ha_tail (by omega)
            simp only [List.take_succ_cons]
            exact List.mem_cons_of_mem x this

theorem lookup_none_of_not_mem (a : String) (t : List (String × ModelStatus))
    (h : a ∉ t.map Prod.fst) : List.lookup a t = none := by
  cases hlk : List.lookup a t with
  | none => rfl
  | some v =>
      exfalso
      exact h ((lookup_isSome_iff a t).mp (by rw [hlk]; rfl))

theorem runAux_split (p : Project) (cap : String → Bool) (pol : FailurePolicy)
    (l₁ l₂ : List String) (m : String) (hm1 : m ∉ l₁) (hm2 : m ∉ l₂) :
    ∃ s : ModelStatus,
      List.lookup m (runProjectAux p cap pol (l₁ ++ m :: l₂)).results = some s ∧
      ((m ∈ (runProjectAux p cap pol (l₁ ++ m :: l₂)).invoked) ↔ s ≠ ModelStatus.skipped) ∧
      (((decide (pol = FailurePolicy.failFast) && (runProjectAux p cap pol l₁).halted)
          || !((projDeps p m).all
                (fun d => (runProjectAux p cap pol l₁).results.lookup d
                  = some ModelStatus.succeeded))) = true →
        s = ModelStatus.skipped) := by
  have hproj : (runProjectAux p cap pol l₁).proj = p :=
    runFold_proj cap pol l₁ ⟨p, [], [], false⟩
  have hrn : runProjectAux p cap pol l₁
      = List.foldl (execStep cap pol) ⟨p, [], [], false⟩ l₁ := rfl
  have hcondeq : ((decide (pol = FailurePolicy.failFast)
        && (runProjectAux p cap pol l₁).halted)
      || !((projDeps (runProjectAux p cap pol l₁).proj m).all
            (fun d => (runProjectAux p cap pol l₁).results.lookup d
              = some ModelStatus.succeeded)))
      = ((decide (pol = FailurePolicy.failFast) && (runProjectAux p cap pol l₁).halted)
      || !((projDeps p m).all
            (fun d => (runProjectAux p cap pol l₁).results.lookup d
              = some ModelStatus.succeeded))) := by
    rw [hproj]
  -- one-step characterization
  obtain ⟨s, hsr, hsi, hscond⟩ :
      ∃ s, (execStep cap pol (runProjectAux p cap pol l₁) m).results
            = (runProjectAux p cap pol l₁).results ++ [(m, s)] ∧
        ((execStep cap pol (runProjectAux p cap pol l₁) m).invoked
            = (runProjectAux p cap pol l₁).invoked ++ [m] ∧ s ≠ ModelStatus.skipped ∨
         (execStep cap pol (runProjectAux p cap pol l₁) m).invoked
            = (runProjectAux p cap pol l₁).invoked ∧ s = ModelStatus.skipped) ∧
        (((decide (pol = FailurePolicy.failFast) && (runProjectAux p cap pol l₁).halted)
            || !((projDeps p m).all
                  (fun d => (runProjectAux p cap pol l₁).results.lookup d
                    = some ModelStatus.succeeded))) = true →
          s = ModelStatus.skipped) := by
    by_cases hcond : ((decide (pol = FailurePolicy.failFast)
          && (runProjectAux p cap pol l₁).halted)
        || !((projDeps p m).all
              (fun d => (runProjectAux p cap pol l₁).results.lookup d
                = some ModelStatus.succeeded))) = true
    · have hcondp := hcondeq.trans hcond
      refine ⟨ModelStatus.skipped, ?_, Or.inr ⟨?_, rfl⟩, fun _ => rfl⟩
      · rw [execStep, if_pos hcondp]
      · rw [execStep, if_pos hcondp]
    · have hcondp : ¬(((decide (pol = FailurePolicy.failFast)
            && (runProjectAux p cap pol l₁).halted)
          || !((projDeps (runProjectAux p cap pol l₁).proj m).all
                (fun d => (runProjectAux p cap pol l₁).results.lookup d
                  = some ModelStatus.succeeded))) = true) :=
        fun hc => hcond (hcondeq.symm.trans hc)
      by_cases hcap : cap m = true
      · refine ⟨ModelStatus.succeeded, ?_, Or.inl ⟨?_, by simp⟩, fun hc => absurd hc hcond⟩
        · rw [execStep, if_neg hcondp, if_pos hcap]
        · rw [execStep, if_neg hcondp, if_pos hcap]
      · refine ⟨ModelStatus.failed, ?_, Or.inl ⟨?_, by simp⟩, fun hc => absurd hc hcond⟩
        · rw [execStep, if_neg hcondp, if_neg hcap]
        · rw [execStep, if_neg hcondp, if_neg hcap]
  -- decompose the fold
  have hfold : runProjectAux p cap pol (l₁ ++ m :: l₂)
      = l₂.foldl (execStep cap pol)
          (execStep cap pol (runProjectAux p cap pol l₁) m) := by
    rw [runProjectAux, List.foldl_append, List.foldl_cons]
    rfl
  -- the prefix has no entry for m
  have hpre_none : List.lookup m (runProjectAux p cap pol l₁).results = none := by
    obtain ⟨t₁, ht₁, hkeys₁⟩ := runFold_results cap pol l₁ (⟨p, [], [], false⟩ : ExecState)
    apply lookup_none_of_not_mem
    rw [hrn, ht₁]
    simp only [List.map_append, List.mem_append]
    rintro (h1 | h1)
    · simp at h1
    · rw [hkeys₁] at h1
      exact hm1 h1
  refine ⟨s, ?_, ?_, hscond⟩
  · rw [hfold]
    obtain ⟨t, ht, hkeys⟩ := runFold_results cap pol l₂
      (execStep cap pol (runProjectAux p cap pol l₁) m)
    rw [ht, lookup_append, hsr, lookup_append, hpre_none]
    simp [List.lookup]
  · rw [hfold]
    obtain ⟨t', ht', hsub'⟩ := runFold_invoked cap pol l₂
      (execStep cap pol (runProjectAux p cap pol l₁) m)
    have hm_pre : m ∉ (runProjectAux p cap pol l₁).invoked := by
      obtain ⟨t₁, ht₁, hsub₁⟩ := runFold_invoked cap pol l₁ (⟨p, [], [], false⟩ : ExecState)
      rw [hrn, ht₁]
      simp only [List.nil_append]
      intro hc
      exact hm1 (hsub₁ m hc)
    have hm_t' : m ∉ t' := fun hc => hm2 (hsub' m hc)
    rw [ht']
    rcases hsi with ⟨hinv, hne⟩ | ⟨hinv, heq⟩
    · rw [hinv]
      simp only [List.mem_append, List.mem_singleton]
      constructor
      · intro _; exact hne
      · intro _; simp
    · rw [hinv]
      simp only [List.mem_append]
      constructor
      · rintro (h1 | h1)
        · exact absurd h1 hm_pre
        · exact absurd h1 hm_t'
      · intro h1
        exact absurd heq h1

theorem order_decomp (ord : List String) (a : String) (ha : a ∈ ord) :
    ord = ord.take (ord.indexOf a) ++ a :: ord.drop (ord.indexOf a + 1) := by
  have hk : ord.indexOf a < ord.length := List.indexOf_lt_length.mpr ha
  have h1 : ord.drop (ord.indexOf a) = a :: ord.drop (ord.indexOf a + 1) := by
    rw [List.drop_eq_getElem_cons hk, List.getElem_indexOf hk]
  calc ord = ord.take (ord.indexOf a) ++ ord.drop (ord.indexOf a) :=
        (List.take_append_drop _ ord).symm
    _ = ord.take (ord.indexOf a) ++ a :: ord.drop (ord.indexOf a + 1) := by rw [h1]

theorem skip_of_bad_dep (reg : Registry) (targets : List String) (p : Project)
    (cap : String → Bool) (pol : FailurePolicy)
    (hp : buildProject reg targets = Except.ok p) :
    ∀ a ∈ p.order, (∃ d ∈ projDeps p a,
        List.lookup d (runProjectAux p cap pol p.order).results
          ≠ some ModelStatus.succeeded) →
      List.lookup a (runProjectAux p cap pol p.order).results = some ModelStatus.skipped ∧
      a ∉ (runProjectAux p cap pol p.order).invoked := by
  intro a ha hbad
  obtain ⟨d, hd, hdbad⟩ := hbad
  obtain ⟨hes, hsch, hmodels, hgraph⟩ := buildProject_ok reg targets p hp
  obtain ⟨hperm, hnodup, _, hidx⟩ :=
    scheduleG_ok reg _ p.order (buildModels_nodup reg targets) hsch
  have ha_g : a ∈ buildModels reg targets := hperm.mem_iff.mp ha
  have hd_deps : d ∈ depsIn reg a := (projDeps_eq_depsIn reg targets p hp a ha_g d).mp hd
  obtain ⟨hd_ord, hd_lt⟩ := hidx a ha d hd_deps
  have hdecomp := order_decomp p.order a ha
  have ha_take : a ∉ p.order.take (p.order.indexOf a) := by
    intro hc
    exact absurd (mem_take_indexOf_lt a p.order _ hc) (lt_irrefl _)
  have ha_drop : a ∉ p.order.drop (p.order.indexOf a + 1) := by
    intro hc
    have h2 : (p.order.take (p.order.indexOf a)
        ++ a :: p.order.drop (p.order.indexOf a + 1)).Nodup := by
      rw [← hdecomp]; exact hnodup
    rcases List.nodup_append.mp h2 with ⟨_, hnd2, _⟩
    exact (List.nodup_cons.mp hnd2).1 hc
  have hd_take : d ∈ p.order.take (p.order.indexOf a) :=
    indexOf_lt_mem_take d p.order _ hd_ord hd_lt
  -- the dependency's status is decided before a's step
  have hstable : List.lookup d (runProjectAux p cap pol p.order).results
      = List.lookup d (runProjectAux p cap pol (p.order.take (p.order.indexOf a))).results := by
    conv_lhs => rw [hdecomp]
    exact runFold_lookup_stable cap pol _ _ _ d hd_take
  obtain ⟨s, hs_lookup, hs_inv, hs_cond⟩ :=
    runAux_split p cap pol (p.order.take (p.order.indexOf a))
      (p.order.drop (p.order.indexOf a + 1)) a ha_take ha_drop
  have hcond : ((decide (pol = FailurePolicy.failFast)
        && (runProjectAux p cap pol (p.order.take (p.order.indexOf a))).halted)
      || !((projDeps p a).all
            (fun x => (runProjectAux p cap pol (p.order.take (p.order.indexOf a))).results.lookup x
              = some ModelStatus.succeeded))) = true := by
    rw [Bool.or_eq_true]
    right
    have hall : ((projDeps p a).all
        (fun x => decide
          (List.lookup x (runProjectAux p cap pol (p.order.take (p.order.indexOf a))).results
            = some ModelStatus.succeeded))) = false := by
      rcases hbool : ((projDeps p a).all
          (fun x => decide
            (List.lookup x (runProjectAux p cap pol (p.order.take (p.order.indexOf a))).results
              = some ModelStatus.succeeded))) with _ | _
      · rfl
      · exfalso
        have := List.all_eq_true.mp hbool d hd
        rw [← hstable] at this
        exact hdbad (by simpa using this)
    rw [hall]
    rfl
  have hs_skip : s = ModelStatus.skipped := hs_cond hcond
  subst hs_skip
  constructor
  · conv_lhs => rw [hdecomp]
    exact hs_lookup
  · rw [hdecomp]
    intro hc
    exact (hs_inv.mp hc) rfl

/-! Claim C4: failure propagation. -/

/-- C4: in every run, a model whose dependency chain (transitively, via
Primary or Auxiliary edges) includes a failed model is never attempted: the
execution capability is not invoked for it and it is reported `Skipped`,
while the entry recorded for any model already processed — in particular an
upstream success — stands unchanged in the final RunResult. -/
theorem claim4 (reg : Registry) (targets : List String) (p : Project)
    (cap : String → Bool) (pol : FailurePolicy) (m f : String)
    (hp : buildProject reg targets = Except.ok p)
    (hm : m ∈ p.order)
    (hdep : TransDepends p m f)
    (hf : List.lookup f (runProject p cap pol).1.perModel = some ModelStatus.failed) :
    List.lookup m (runProject p cap pol).1.perModel = some ModelStatus.skipped ∧
    m ∉ (runProjectAux p cap pol p.order).invoked ∧
    (∀ (k : Nat) (a : String), a ∈ p.order.take k →
      List.lookup a (runProjectAux p cap pol (p.order.take k)).results
        = List.lookup a (runProject p cap pol).1.perModel) := by
  obtain ⟨hes, hsch, hmodels, hgraph⟩ := buildProject_ok reg targets p hp
  obtain ⟨hperm, hnodup, _, _⟩ :=
    scheduleG_ok reg _ p.order (buildModels_nodup reg targets) hsch
  have hproj_sub : ∀ a, a ∈ p.order → ∀ c ∈ projDeps p a, c ∈ p.order := by
    intro a ha c hc
    have ha_g : a ∈ buildModels reg targets := hperm.mem_iff.mp ha
    have hc_deps : c ∈ depsIn reg a := (projDeps_eq_depsIn reg targets p hp a ha_g c).mp hc
    obtain ⟨hc1, hc2⟩ := List.mem_filter.mp hc_deps
    have hc_g : c ∈ buildModels reg targets :=
      buildModels_closed reg targets a ha_g c hc1 (by simpa using hc2)
    exact hperm.mem_iff.mpr hc_g
  have hfr : List.lookup f (runProjectAux p cap pol p.order).results
      = some ModelStatus.failed := hf
  have hmain : ∀ a, TransDepends p a f → a ∈ p.order →
      List.lookup a (runProjectAux p cap pol p.order).results = some ModelStatus.skipped ∧
      a ∉ (runProjectAux p cap pol p.order).invoked := by
    intro a hrel
    induction hrel using Relation.TransGen.head_induction_on with
    | base haf =>
        intro ha
        refine skip_of_bad_dep reg targets p cap pol hp _ ha ⟨f, haf, ?_⟩
        rw [hfr]
        simp
    | ih hac htail ihc =>
        intro ha
        rename_i a' c
        have hc_ord : c ∈ p.order := hproj_sub a' ha c hac
        have hcskip := ihc hc_ord
        refine skip_of_bad_dep reg targets p cap pol hp _ ha ⟨c, hac, ?_⟩
        rw [hcskip.1]
        simp
  have hstab : ∀ (k : Nat) (a : String), a ∈ p.order.take k →
      List.lookup a (runProjectAux p cap pol (p.order.take k)).results
        = List.lookup a (runProject p cap pol).1.perModel := by
    intro k a hak
    have hsplit : p.order = p.order.take k ++ p.order.drop k :=
      (List.take_append_drop k p.order).symm
    have := runFold_lookup_stable cap pol (⟨p, [], [], false⟩ : ExecState)
      (p.order.take k) (p.order.drop k) a hak
    show List.lookup a (runProjectAux p cap pol (p.order.take k)).results
        = List.lookup a (runProjectAux p cap pol p.order).results
    conv_rhs => rw [hsplit]
    exact this.symm
  exact ⟨(hmain m hdep hm).1, (hmain m hdep hm).2, hstab⟩

/-- Witness for C4 at the concrete chain `C` depends on `B` depends on `A`
under `FailFast`, with a capability that fails exactly `B`: `A` succeeds,
`B` fails, `C` is skipped and never invoked. -/
theorem claim4_witness :
    buildProject chainReg ["C"] = Except.ok chainProj ∧
    List.lookup "A" (runProject chainProj chainCap FailurePolicy.failFast).1.perModel
      = some ModelStatus.succeeded ∧
    List.lookup "B" (runProject chainProj chainCap FailurePolicy.failFast).1.perModel
      = some ModelStatus.failed ∧
    List.lookup "C" (runProject chainProj chainCap FailurePolicy.failFast).1.perModel
      = some ModelStatus.skipped ∧
    "C" ∉ (runProjectAux chainProj chainCap FailurePolicy.failFast chainProj.order).invoked := by
  have h := claim4 chainReg ["C"] chainProj chainCap FailurePolicy.failFast "C" "B"
    rfl (by decide) (Relation.TransGen.single (by decide)) (by decide)
  exact ⟨rfl, by decide, by decide, h.1, h.2.1⟩

end Tmql
